import Mathlib

/-!
Verification of the Argus agent core against its specification.

The definitions below are a shallow embedding of the TypeScript sources:
`src/security/trust.ts`, `src/security/types.ts`, `src/security/validator.ts`,
`src/security/sanitizer.ts`, `src/security/patterns.ts`, `src/crypto/stamp.ts`,
`src/crypto/audit.ts`, `src/crypto/nonce-registry.ts`, `src/agent/coder.ts`
and `src/agent/pipeline.ts`.  Effectful inputs (clock readings, random nonces,
LLM responses, forge responses) become explicit parameters; SHA-256, HMAC and
JSON serialization become abstract function parameters, since the code relies
only on their determinism.  JavaScript numbers are modelled as rationals.
-/

namespace Argus

/-! ## Trust model (src/security/trust.ts, src/security/types.ts) -/

/-- Canonical forge roles (`RepoRole` in src/forge/types.ts). -/
inductive RepoRole
  | owner | admin | maintainer | write | triage | read | none
deriving DecidableEq, Repr

/-- Trust tiers (`TrustTier` in src/security/types.ts). -/
inductive TrustTier
  | owner | maintainer | reviewer | contributor | participant | unknown
deriving DecidableEq, Repr

/-- `roleToTier` from src/security/trust.ts. -/
def roleToTier : RepoRole → TrustTier
  | RepoRole.admin => TrustTier.owner
  | RepoRole.owner => TrustTier.owner
  | RepoRole.maintainer => TrustTier.maintainer
  | RepoRole.write => TrustTier.reviewer
  | RepoRole.triage => TrustTier.contributor
  | RepoRole.read => TrustTier.participant
  | RepoRole.none => TrustTier.unknown

/-- `BASE_TRUST_SCORES` from src/security/types.ts. -/
def baseTrustScore : TrustTier → ℚ
  | TrustTier.owner => 1
  | TrustTier.maintainer => 0.85
  | TrustTier.reviewer => 0.75
  | TrustTier.contributor => 0.5
  | TrustTier.participant => 0.3
  | TrustTier.unknown => 0

/-- `UserHistory` fields used by `computeHistoryModifier` (src/forge/types.ts). -/
structure UserHistory where
  mergedPRs : ℕ
  closedIssuesAsValid : ℕ
  previousFlags : ℕ
  previousBlocks : ℕ
  totalComments : ℕ
deriving Repr

/-- `computeHistoryModifier` from src/security/trust.ts: additive bonuses and
penalties, clamped to the interval [-0.3, 0.2]. -/
def computeHistoryModifier (h : UserHistory) : ℚ :=
  let m : ℚ :=
    min ((h.mergedPRs : ℚ) * 0.02) 0.1
    + min ((h.closedIssuesAsValid : ℚ) * 0.01) 0.05
    + (if 20 < h.totalComments then 0.02 else 0)
    + (if 100 < h.totalComments then 0.03 else 0)
    - min ((h.previousFlags : ℚ) * 0.05) 0.15
    - min ((h.previousBlocks : ℚ) * 0.15) 0.3
  max (-0.3) (min 0.2 m)

/-- The pure core of `TrustResolver.resolve` (src/security/trust.ts): the parts
of the profile computed from the forge-reported role and history. -/
structure TrustProfile where
  tier : TrustTier
  baseScore : ℚ
  historyModifier : ℚ
  effectiveTrustScore : ℚ
deriving Repr

/-- `TrustResolver.resolve`, with the forge answers `(role, history)` passed in
as data (the forge call is I/O). -/
def resolveProfile (role : RepoRole) (h : UserHistory) : TrustProfile :=
  let tier := roleToTier role
  let base := baseTrustScore tier
  let modifier := computeHistoryModifier h
  { tier := tier
    baseScore := base
    historyModifier := modifier
    effectiveTrustScore := max 0 (min 1 (base + modifier)) }

/-- `ThreatThresholds` (src/security/types.ts); `Infinity` is modelled by `⊤`
in `WithTop ℚ`. -/
structure ThreatThresholds where
  flagThreshold : ℚ
  blockThreshold : ℚ
  reportThreshold : WithTop ℚ
deriving Repr

/-- `computeThresholds` from src/security/types.ts. -/
def computeThresholds (trustScore : ℚ) : ThreatThresholds :=
  { flagThreshold := 0.5 + trustScore * 0.3
    blockThreshold := 0.8 + trustScore * 0.19
    reportThreshold := if 0.75 ≤ trustScore then ⊤ else (0.95 : ℚ) }

/-! ## Comment handler decision (src/agent/comment-handler.ts) -/

/-- Threat classifications (src/security/types.ts). -/
inductive ThreatClass
  | clean | suspicious | hostile
deriving DecidableEq, Repr

/-- The classifier verdict fields consumed by the comment handler. -/
structure ThreatVerdict where
  classification : ThreatClass
  confidence : ℚ
deriving Repr

/-- Moderation actions (`CommentAction.actions` elements). -/
inductive ModAction
  | flag | delete | block | report | update_pr | none
deriving DecidableEq, Repr

/-- The decision part of a `CommentAction` record. -/
structure CommentDecision where
  threatClassification : ThreatClass
  actions : List ModAction
deriving Repr

/-- The decision logic of `CommentHandler.processOneComment`: the sanitizer,
trust resolver and threat classifier results arrive as inputs (they are the
values the awaited calls produced); the branch structure mirrors the source. -/
def decideComment (trust : TrustProfile) (threat : ThreatVerdict) : CommentDecision :=
  let thresholds := computeThresholds trust.effectiveTrustScore
  if trust.tier = TrustTier.owner then
    { threatClassification := ThreatClass.clean, actions := [ModAction.none] }
  else if threat.classification = ThreatClass.hostile
      ∧ thresholds.blockThreshold ≤ threat.confidence then
    let actions :=
      if (thresholds.reportThreshold ≤ (threat.confidence : WithTop ℚ)) then
        [ModAction.delete, ModAction.block, ModAction.report]
      else [ModAction.delete, ModAction.block]
    { threatClassification := ThreatClass.hostile, actions := actions }
  else if threat.classification = ThreatClass.suspicious
      ∨ thresholds.flagThreshold ≤ threat.confidence then
    { threatClassification := ThreatClass.suspicious, actions := [ModAction.flag] }
  else
    { threatClassification := ThreatClass.clean, actions := [ModAction.none] }

/-! ## Output validator (src/security/validator.ts)

Regex matchers for secrets and dangerous code constructs enter as parameters
(`String → Option ℕ`, returning the match index): the theorems hold for every
matcher, in particular for the concrete catalogs in src/security/patterns.ts.
The forbidden-path deny-list consists of case-insensitive anchored literal
patterns and is embedded concretely. -/

/-- A proposed `{ path, content }` file change. -/
structure VFile where
  path : String
  content : String
deriving Repr, DecidableEq

/-- Issue severity. -/
inductive Severity
  | error | warning
deriving DecidableEq, Repr

/-- `ValidationIssue` (src/security/validator.ts). -/
structure ValidationIssue where
  severity : Severity
  category : String
  description : String
  file : Option String := Option.none
  line : Option ℕ := Option.none
deriving Repr, DecidableEq

/-- `ValidationResult` (src/security/validator.ts). -/
structure ValidationResult where
  valid : Bool
  issues : List ValidationIssue
deriving Repr

/-- JavaScript `toLowerCase`, character by character. -/
def lowerStr (s : String) : String := String.mk (s.data.map Char.toLower)

/-- JavaScript anchored prefix test. -/
def strStartsWith (s pre : String) : Bool := pre.data.isPrefixOf s.data

/-- `FORBIDDEN_PATHS`: each case-insensitive anchored regex becomes a test on
the lowercased path. -/
def forbiddenPaths : List (String → Bool) :=
  [ fun p => strStartsWith (lowerStr p) ".github/workflows/"
  , fun p => lowerStr p = ".gitlab-ci.yml"
  , fun p => strStartsWith (lowerStr p) ".gitlab/ci/"
  , fun p => lowerStr p = "jenkinsfile"
  , fun p => strStartsWith (lowerStr p) ".circleci/"
  , fun p => lowerStr p = ".travis.yml"
  , fun p => lowerStr p = "azure-pipelines.yml"
  , fun p => lowerStr p = "dockerfile"
  , fun p => lowerStr p = "docker-compose.yml"
  , fun p => strStartsWith (lowerStr p) ".env"
  , fun p => lowerStr p = ".npmrc"
  , fun p => strStartsWith (lowerStr p) ".yarnrc"
  , fun p => lowerStr p = ".pypirc"
  , fun p => strStartsWith (lowerStr p) ".ssh/"
  , fun p => strStartsWith (lowerStr p) ".gnupg/"
  , fun p => lowerStr p = "package-lock.json"
  , fun p => lowerStr p = "yarn.lock"
  , fun p => lowerStr p = "gemfile.lock" ]

/-- An entry of `CODE_OUTPUT_DANGER_PATTERNS`: an abstract matcher plus the
name, severity and description carried by the catalog. -/
structure DangerPattern where
  find : String → Option ℕ
  name : String
  severity : Severity
  description : String

/-- Line number of a match index: `content.substring(0, idx).split('\n').length`. -/
def lineOfIndex (content : String) (idx : ℕ) : ℕ :=
  ((content.toList.take idx).count '\n') + 1

/-- `MAX_DIFF_SIZE` (characters). -/
def MAX_DIFF_SIZE : ℕ := 50000

/-- `MAX_FILE_COUNT`. -/
def MAX_FILE_COUNT : ℕ := 30

/-- `OutputValidator.validate`: size checks, then per file the forbidden-path,
embedded-secret and danger-pattern checks, in source order. -/
def validate (secrets : List (String → Option ℕ)) (dangers : List DangerPattern)
    (files : List VFile) : ValidationResult :=
  let totalSize := files.foldl (fun sum f => sum + f.content.length) 0
  let sizeIssues : List ValidationIssue :=
    (if MAX_DIFF_SIZE < totalSize then
      [{ severity := Severity.warning, category := "size"
         description := "Total diff size " ++ toString totalSize ++
           " chars exceeds " ++ toString MAX_DIFF_SIZE ++ " char limit" }]
     else []) ++
    (if MAX_FILE_COUNT < files.length then
      [{ severity := Severity.warning, category := "size"
         description := "Push contains " ++ toString files.length ++
           " files, exceeding " ++ toString MAX_FILE_COUNT ++ " file limit" }]
     else [])
  let fileIssues : List ValidationIssue :=
    files.flatMap fun f =>
      (forbiddenPaths.filterMap fun pat =>
        if pat f.path then
          some { severity := Severity.error, category := "forbidden_path"
                 description := "Attempting to modify forbidden file: " ++ f.path
                 file := some f.path }
        else Option.none) ++
      (secrets.filterMap fun m =>
        (m f.content).map fun idx =>
          { severity := Severity.error, category := "embedded_secret"
            description := "Possible embedded secret/token in " ++ f.path ++ ":" ++
              toString (lineOfIndex f.content idx)
            file := some f.path, line := some (lineOfIndex f.content idx) }) ++
      (dangers.filterMap fun dp =>
        (dp.find f.content).map fun idx =>
          { severity := dp.severity, category := dp.name
            description := dp.name ++ ": " ++ dp.description ++ " in " ++ f.path ++
              ":" ++ toString (lineOfIndex f.content idx)
            file := some f.path, line := some (lineOfIndex f.content idx) })
  let issues := sizeIssues ++ fileIssues
  { valid := !(issues.any fun i => i.severity == Severity.error), issues := issues }

/-! ## Coder loop (src/agent/coder.ts)

`Coder.code` drives up to `maxIterations` rounds of generate → validate →
push → CI.  The LLM (`generateChanges`, which can throw on canary failure)
and the CI poll result become oracle functions in a `CoderEnv`; the loop is
a recursion over the remaining iteration budget that emits a trace of
iteration records, file pushes, audit appends and `generateChanges` calls. -/

/-- `CodeChangeSet` (src/agent/coder.ts). -/
structure CodeChangeSet where
  files : List VFile
  commitMessage : String
  reasoning : String
  selfReview : String
deriving Repr, DecidableEq

/-- CI outcome states as returned by `waitForCI`. -/
inductive CIState
  | passing | failing | pending
deriving DecidableEq, Repr

/-- Result of `waitForCI`. -/
structure CIResult where
  state : CIState
  log : String
deriving Repr, DecidableEq

/-- An element of `CodingIteration.filesChanged`. -/
structure FileChange where
  path : String
  linesAdded : ℕ
  linesRemoved : ℕ
deriving Repr, DecidableEq

/-- `CodingIteration` (src/agent/types.ts as used by the coder). -/
structure CodingIteration where
  iteration : ℕ
  filesChanged : List FileChange
  commitMessage : String
  reasoning : String
  selfReview : String
  ciResult : Option CIState := Option.none
  ciLog : Option String := Option.none
deriving Repr, DecidableEq

/-- One `forge.createOrUpdateFile` call. -/
structure PushEvent where
  iteration : ℕ
  path : String
  content : String
  message : String
deriving Repr, DecidableEq

/-- The audit-log append performed by the coder (`action` is always
`push_code`; the target `#N iteration i` is carried as the index). -/
structure CoderAudit where
  action : String
  iteration : ℕ
  output : String
  decision : String
  details : String
deriving Repr, DecidableEq

/-- Everything the coder loop observably does. `genCalls` records each
`generateChanges` invocation with the `previousCILog` and `previousChanges`
arguments it received. -/
structure CoderTrace where
  iterations : List CodingIteration
  pushes : List PushEvent
  audits : List CoderAudit
  genCalls : List (ℕ × Option String × Option CodeChangeSet)
deriving Repr

/-- Concatenation of traces. -/
def CoderTrace.app (a b : CoderTrace) : CoderTrace :=
  { iterations := a.iterations ++ b.iterations
    pushes := a.pushes ++ b.pushes
    audits := a.audits ++ b.audits
    genCalls := a.genCalls ++ b.genCalls }

/-- The coder's effectful collaborators: the LLM (`gen`, which may throw),
the CI poll, the validator catalogs and the JSON serializer. -/
structure CoderEnv where
  gen : ℕ → Option String → Option CodeChangeSet → Except String CodeChangeSet
  ciRun : ℕ → CIResult
  secrets : List (String → Option ℕ)
  dangers : List DangerPattern
  ser : List String → String

/-- `content.split('\n').length`. -/
def countLines (s : String) : ℕ := s.data.count '\n' + 1

/-- The `errorDetails` string the coder builds from a failed validation. -/
def blockedErrText (secrets : List (String → Option ℕ)) (dangers : List DangerPattern)
    (ch : CodeChangeSet) : String :=
  String.intercalate "; "
    (((validate secrets dangers ch.files).issues.filter
        fun v => v.severity == Severity.error).map fun v => v.description)

/-- The `CodingIteration` record of a successful (validated) iteration. -/
def okIteration (env : CoderEnv) (i : ℕ) (changes : CodeChangeSet) : CodingIteration :=
  { iteration := i
    filesChanged := changes.files.map fun f => ⟨f.path, countLines f.content, 0⟩
    commitMessage := changes.commitMessage
    reasoning := changes.reasoning
    selfReview := changes.selfReview
    ciResult := some (env.ciRun i).state
    ciLog := some (env.ciRun i).log }

/-- The `CodingIteration` record of a validation-blocked iteration. -/
def blockedIteration (env : CoderEnv) (i : ℕ) (changes : CodeChangeSet) : CodingIteration :=
  { iteration := i
    filesChanged := []
    commitMessage := "[BLOCKED] Validation failed"
    reasoning := changes.reasoning
    selfReview := "BLOCKED: " ++ blockedErrText env.secrets env.dangers changes }

/-- The `CodingIteration` record of an iteration whose LLM call threw. -/
def errIteration (i : ℕ) (e : String) : CodingIteration :=
  { iteration := i
    filesChanged := []
    commitMessage := "[ERROR] Iteration " ++ toString i ++ " failed"
    reasoning := e
    selfReview := "Error during code generation" }

/-- The trace of one successful (validated) iteration: the per-file
`createOrUpdateFile` calls, the `push_code` audit append, the iteration
record carrying the CI outcome, and the `generateChanges` call record. -/
def coderHereOk (env : CoderEnv) (i : ℕ) (pl : Option String)
    (pc : Option CodeChangeSet) (changes : CodeChangeSet) : CoderTrace :=
  { iterations := [okIteration env i changes]
    pushes := changes.files.map fun f =>
      ⟨i, f.path, f.content, changes.commitMessage ++ " [" ++ f.path ++ "]"⟩
    audits := [⟨"push_code", i,
      env.ser (changes.files.map fun f => f.content),
      "Pushed " ++ toString changes.files.length ++ " files",
      changes.commitMessage⟩]
    genCalls := [(i, pl, pc)] }

/-- The trace of one validation-blocked iteration: no pushes, a BLOCKED
iteration record and a BLOCKED `push_code` audit append. -/
def coderHereBlocked (env : CoderEnv) (i : ℕ) (pl : Option String)
    (pc : Option CodeChangeSet) (changes : CodeChangeSet) : CoderTrace :=
  { iterations := [blockedIteration env i changes]
    pushes := []
    audits := [⟨"push_code", i, "BLOCKED",
      "Validation failed: " ++ blockedErrText env.secrets env.dangers changes,
      "Code push blocked by output validator"⟩]
    genCalls := [(i, pl, pc)] }

/-- The trace of an iteration whose `generateChanges` call threw. -/
def coderHereErr (i : ℕ) (pl : Option String) (pc : Option CodeChangeSet)
    (e : String) : CoderTrace :=
  { iterations := [errIteration i e]
    pushes := []
    audits := []
    genCalls := [(i, pl, pc)] }

/-- The body of `Coder.code`'s `for` loop: `rem` is the remaining iteration
budget, `i` the 1-based iteration index, `prevLog`/`prevChanges` the feedback
threaded between iterations.  A validation failure blocks the push, audits
BLOCKED, feeds the error text forward as the synthetic CI log and continues;
a passing CI or a thrown error terminates the loop. -/
def codeGo (env : CoderEnv) : ℕ → ℕ → Option String → Option CodeChangeSet → CoderTrace
  | 0, _, _, _ => { iterations := [], pushes := [], audits := [], genCalls := [] }
  | rem + 1, i, prevLog, prevChanges =>
    match env.gen i prevLog prevChanges with
    | Except.error e => coderHereErr i prevLog prevChanges e
    | Except.ok changes =>
      if (validate env.secrets env.dangers changes.files).valid then
        let here := coderHereOk env i prevLog prevChanges changes
        match (env.ciRun i).state with
        | CIState.passing => here
        | CIState.failing =>
          here.app (codeGo env rem (i + 1) (some (env.ciRun i).log) (some changes))
        | CIState.pending =>
          here.app (codeGo env rem (i + 1) prevLog prevChanges)
      else
        (coderHereBlocked env i prevLog prevChanges changes).app
          (codeGo env rem (i + 1)
            (some ("OUTPUT VALIDATION FAILED:\n" ++
              blockedErrText env.secrets env.dangers changes))
            (some changes))

/-- `Coder.code`: run the loop from iteration 1 with no previous feedback. -/
def coderCode (env : CoderEnv) (maxIterations : ℕ) : CoderTrace :=
  codeGo env maxIterations 1 Option.none Option.none

/-- An environment whose LLM always proposes writing `.env`: every iteration
is blocked by the validator. -/
def coderWitnessEnv : CoderEnv :=
  { gen := fun _ _ _ => Except.ok ⟨[⟨".env", "x"⟩], "m", "r", "s"⟩
    ciRun := fun _ => ⟨CIState.passing, ""⟩
    secrets := []
    dangers := []
    ser := fun _ => "" }

/-! ## Audit log (src/crypto/audit.ts)

`AuditLog` keeps a counter and the hash of the last serialized entry;
`append` builds a signed entry whose `previousEntryHash` is the current
chain head, and `verifyChain` walks the stored entries from genesis.
SHA-256, HMAC-SHA256 and `JSON.stringify` are abstract function parameters;
the key manager contributes the signing key and the optional previous key
(`getVerificationKeys` returns current then previous). -/

/-- `AuditEntry` (src/security/types.ts); `action` carries the string of the
`AuditAction` union. -/
structure AuditEntry where
  id : String
  timestamp : String
  action : String
  repo : String
  target : String
  inputHash : String
  outputHash : String
  decision : String
  llmCallCount : ℕ
  details : String
  previousEntryHash : String
  signature : String
deriving Repr, DecidableEq

/-- The cryptographic collaborators of the audit log. -/
structure AuditModel where
  hash : String → String
  hmac : String → String → String
  serialize : AuditEntry → String
  signingKey : String
  previousKey : Option String

/-- `KeyManager.getVerificationKeys`: current key, then the previous key
when one exists. -/
def AuditModel.verificationKeys (M : AuditModel) : List String :=
  M.signingKey :: M.previousKey.toList

/-- The HMAC payload of an entry (signature field not included). -/
def sigPayload (e : AuditEntry) : String :=
  e.id ++ "|" ++ e.timestamp ++ "|" ++ e.action ++ "|" ++ e.repo ++ "|" ++
    e.target ++ "|" ++ e.inputHash ++ "|" ++ e.outputHash ++ "|" ++
    e.decision ++ "|" ++ e.previousEntryHash

/-- `hashEntry`: SHA-256 of the JSON-serialized entry. -/
def hashEntry (M : AuditModel) (e : AuditEntry) : String := M.hash (M.serialize e)

/-- Decimal digits of `n` (most significant first), driven by fuel so that
the definition is structurally recursive. -/
def decDigitsAux : ℕ → ℕ → List Char
  | 0, _ => []
  | fuel + 1, n =>
    if n = 0 then [] else decDigitsAux fuel (n / 10) ++ [Nat.digitChar (n % 10)]

/-- JavaScript `String(n)` for a natural number. -/
def natToDec (n : ℕ) : String :=
  if n = 0 then "0" else String.mk (decDigitsAux n n)

/-- `counter.toString().padStart(8, '0')`. -/
def padId (n : ℕ) : String :=
  String.mk (List.replicate (8 - (natToDec n).length) '0' ++ (natToDec n).data)

/-- The 64-zero genesis hash. -/
def zeros64 : String := String.mk (List.replicate 64 '0')

/-- The mutable state of `AuditLog`: counter, chain head, stored entries
(the `globalState` map keyed by the 8-digit ids, in order). -/
structure AuditState where
  counter : ℕ
  lastEntryHash : String
  entries : List AuditEntry
deriving Repr

/-- The parameters of one `append` call; `timestamp` is the clock reading. -/
structure AppendParams where
  action : String
  repo : String
  target : String
  input : String
  output : String
  decision : String
  llmCallCount : ℕ
  details : String
  timestamp : String
deriving Repr

/-- `AuditLog.append`. -/
def appendEntry (M : AuditModel) (s : AuditState) (p : AppendParams) :
    AuditState × AuditEntry :=
  let counter := s.counter + 1
  let e0 : AuditEntry :=
    { id := padId counter
      timestamp := p.timestamp
      action := p.action
      repo := p.repo
      target := p.target
      inputHash := M.hash p.input
      outputHash := M.hash p.output
      decision := p.decision
      llmCallCount := p.llmCallCount
      details := p.details
      previousEntryHash := s.lastEntryHash
      signature := "" }
  let e := { e0 with signature := M.hmac M.signingKey (sigPayload e0) }
  ({ counter := counter
     lastEntryHash := hashEntry M e
     entries := s.entries ++ [e] }, e)

/-- The freshly loaded audit log. -/
def initAudit : AuditState :=
  { counter := 0, lastEntryHash := zeros64, entries := [] }

/-- Audit states produced by a sequence of `append` calls. -/
inductive AuditReachable (M : AuditModel) : AuditState → Prop
  | init : AuditReachable M initAudit
  | step (s : AuditState) (p : AppendParams) :
      AuditReachable M s → AuditReachable M (appendEntry M s p).1

/-- Signature check of `verifyChain`: some verification key reproduces the
stored signature. -/
def sigValid (M : AuditModel) (e : AuditEntry) : Bool :=
  M.verificationKeys.any fun k => M.hmac k (sigPayload e) == e.signature

/-- The loop of `AuditLog.verifyChain`, walking the entries from the genesis
hash and rederiving each expected previous hash. -/
def verifyChainList (M : AuditModel) : String → List AuditEntry → Bool
  | _, [] => true
  | expected, e :: rest =>
    if e.previousEntryHash = expected then
      if sigValid M e then verifyChainList M (hashEntry M e) rest else false
    else false

/-- `AuditLog.verifyChain` on the stored entries. -/
def verifyChain (M : AuditModel) (s : AuditState) : Bool :=
  verifyChainList M zeros64 s.entries

/-- The declarative reading of a well-formed chain: genesis link, hash links
and a valid signature at every position. -/
def ChainSpec (M : AuditModel) (entries : List AuditEntry) : Prop :=
  ∀ idx e, entries[idx]? = some e →
    ((idx = 0 → e.previousEntryHash = zeros64) ∧
     (∀ j e2, idx = j + 1 → entries[j]? = some e2 →
        e.previousEntryHash = hashEntry M e2) ∧
     ∃ k ∈ M.verificationKeys, M.hmac k (sigPayload e) = e.signature)

/-- Decimal value of a digit string (used only to invert `padId`). -/
def decVal (l : List Char) : ℕ :=
  l.foldl (fun acc c => acc * 10 + (c.toNat - 48)) 0

/-- A concrete audit model with trivially computable primitives. -/
def auditWitnessModel : AuditModel :=
  { hash := fun s => s
    hmac := fun k m => k ++ m
    serialize := fun e => sigPayload e
    signingKey := "key"
    previousKey := Option.none }

/-! ## Stamp manager (src/crypto/stamp.ts, src/crypto/nonce-registry.ts)

`StampManager` appends a signed markdown footer to content and verifies it by
splitting at the last `"\n\n---\n"` delimiter and running `STAMP_REGEX` over
the stamp block.  The regex is embedded as a deterministic scanner: every
greedy character-class run in the pattern is followed by a literal whose
first character lies outside the class, so longest-munch matching without
backtracking coincides with the JavaScript semantics.  SHA-256, HMAC, the
clock and `Date.parse` are abstract parameters. -/

/-- `ArgusStamp` (src/crypto/types.ts). -/
structure ArgusStamp where
  instanceId : String
  version : String
  timestamp : String
  nonce : String
  contentHash : String
  signature : String
deriving Repr, DecidableEq

/-- `StampVerification` (src/crypto/types.ts). -/
structure StampVerification where
  valid : Bool
  reason : Option String
  stamp : Option ArgusStamp
  isOurInstance : Bool
  tampered : Bool
  replayed : Bool
deriving Repr, DecidableEq

/-- `NonceEntry` (src/crypto/types.ts). -/
structure NonceEntry where
  nonce : String
  timestamp : String
  repo : String
  commentId : String
  action : String
deriving Repr, DecidableEq

/-- The in-memory `NonceRegistry` map; `register` prepends, `lookup` takes the
first binding, matching `Map.set`/`Map.get`. -/
def Registry := List (String × NonceEntry)

/-- `NonceRegistry.lookup`. -/
def lookupNonce (reg : Registry) (nonce : String) : Option NonceEntry :=
  List.lookup nonce reg

/-- `NonceRegistry.register`. -/
def registerNonce (reg : Registry) (e : NonceEntry) : Registry :=
  (e.nonce, e) :: reg

/-- The stamp manager's collaborators: hash and HMAC primitives, the key
manager's instance id and keys, and the verification-time clock. -/
structure StampModel where
  hash : String → String
  hmac : String → String → String
  instanceId : String
  signingKey : String
  previousKey : Option String
  now : ℤ
  timeOf : String → ℤ

/-- `KeyManager.getVerificationKeys` for the stamp manager. -/
def StampModel.verificationKeys (M : StampModel) : List String :=
  M.signingKey :: M.previousKey.toList

/-- `VERSION` in src/crypto/stamp.ts. -/
def stampVERSION : String := "0.1.0"

/-- `STAMP_DELIMITER` as a character list. -/
def delimChars : List Char := ['\n', '\n', '-', '-', '-', '\n']

/-- The HMAC message `instanceId|timestamp|nonce|contentHash`. -/
def stampMessage (instanceId ts nonce contentHash : String) : String :=
  instanceId ++ "|" ++ ts ++ "|" ++ nonce ++ "|" ++ contentHash

/-- `StampManager.generate`, with the clock reading and the random nonce as
inputs. -/
def generateStamp (M : StampModel) (ts nonce content : String) : ArgusStamp :=
  let contentHash := M.hash content
  { instanceId := M.instanceId
    version := stampVERSION
    timestamp := ts
    nonce := nonce
    contentHash := contentHash
    signature := M.hmac M.signingKey
      (stampMessage M.instanceId ts nonce contentHash) }

/-- `s.substring(0, n)`. -/
def strTake (s : String) (n : ℕ) : String := String.mk (s.data.take n)

/-- The footer text after the delimiter, as `formatStamp` renders it. -/
def mkFooter (version shortId ts nonce sig : String) : String :=
  "<sub>🔏 Argus v" ++ version ++ " · <code>" ++ shortId ++ "</code> · " ++
    ts ++ " · <code>sig:" ++ nonce ++ ":" ++ sig ++ "</code></sub>"

/-- `StampManager.formatStamp`. -/
def formatStamp (stamp : ArgusStamp) : String :=
  String.mk delimChars ++
    mkFooter stamp.version (strTake stamp.instanceId 8) stamp.timestamp
      stamp.nonce stamp.signature

/-- `StampManager.stampContent`. -/
def stampContent (M : StampModel) (ts nonce content : String) :
    String × ArgusStamp :=
  let stamp := generateStamp M ts nonce content
  (content ++ formatStamp stamp, stamp)

/-- `commentBody.lastIndexOf(STAMP_DELIMITER)`: split at the last delimiter
occurrence, returning the content before it and the remainder after it. -/
def splitLastDelim : List Char → Option (List Char × List Char)
  | [] => Option.none
  | c :: cs =>
    match splitLastDelim cs with
    | some (pre, suf) => some (c :: pre, suf)
    | Option.none =>
      if delimChars.isPrefixOf (c :: cs) then some ([], (c :: cs).drop 6)
      else Option.none

/-- `[a-f0-9]`. -/
def isHexChar (c : Char) : Bool :=
  ('0' ≤ c && c ≤ '9') || ('a' ≤ c && c ≤ 'f')

/-- `[\d.]`. -/
def isVersChar (c : Char) : Bool :=
  ('0' ≤ c && c ≤ '9') || c = '.'

/-- `[\d\-T:.Z]`. -/
def isTsChar (c : Char) : Bool :=
  ('0' ≤ c && c ≤ '9') || c = '-' || c = 'T' || c = ':' || c = '.' || c = 'Z'

/-- Drop a literal token when it prefixes the input. -/
def dropLit (lit l : List Char) : Option (List Char) :=
  if lit.isPrefixOf l then some (l.drop lit.length) else Option.none

/-- Match `STAMP_REGEX` at the head of `l`, yielding the four capture
groups (short instance id, timestamp, nonce, signature). -/
def matchFooterAt (l : List Char) :
    Option (List Char × List Char × List Char × List Char) :=
  (dropLit "<sub>🔏 Argus v".data l).bind fun l1 =>
  let vers := l1.takeWhile isVersChar
  let l2 := l1.dropWhile isVersChar
  if vers = [] then Option.none else
  (dropLit " · <code>".data l2).bind fun l3 =>
  let sid := l3.takeWhile isHexChar
  let l4 := l3.dropWhile isHexChar
  if sid = [] then Option.none else
  (dropLit "</code> · ".data l4).bind fun l5 =>
  let ts := l5.takeWhile isTsChar
  let l6 := l5.dropWhile isTsChar
  if ts = [] then Option.none else
  (dropLit " · <code>sig:".data l6).bind fun l7 =>
  let non := l7.takeWhile isHexChar
  let l8 := l7.dropWhile isHexChar
  if non = [] then Option.none else
  (dropLit [':'] l8).bind fun l9 =>
  let sig := l9.takeWhile isHexChar
  let l10 := l9.dropWhile isHexChar
  if sig = [] then Option.none else
  (dropLit "</code></sub>".data l10).map fun _ => (sid, ts, non, sig)

/-- `STAMP_REGEX.exec`: the leftmost match. -/
def findFooter : List Char → Option (List Char × List Char × List Char × List Char)
  | [] => Option.none
  | c :: cs =>
    match matchFooterAt (c :: cs) with
    | some r => some r
    | Option.none => findFooter cs

/-- `StampManager.hasStamp` (`STAMP_REGEX.test`). -/
def hasStamp (commentBody : String) : Bool :=
  (findFooter commentBody.data).isSome

/-- The post-parse stage of `StampManager.verify`: the instance check, the
hash recomputation and signature check against every verification key, the
anti-replay check with nonce registration, and the timestamp sanity check. -/
def verifyParsed (M : StampModel) (reg : Registry)
    (content shortId timestamp nonce signature : String)
    (commentId : Option String) : StampVerification × Registry :=
  if ¬ strStartsWith M.instanceId shortId then
    ({ valid := false,
       reason := some ("Different Argus instance (" ++ shortId ++ ")"),
       stamp := Option.none, isOurInstance := false, tampered := false,
       replayed := false }, reg)
  else
    let contentHash := M.hash content
    let message := stampMessage M.instanceId timestamp nonce contentHash
    if ¬ (M.verificationKeys.any fun k => M.hmac k message == signature) then
      ({ valid := false,
         reason := some "Invalid signature — content may have been tampered with",
         stamp := Option.none, isOurInstance := true, tampered := true,
         replayed := false }, reg)
    else
      let existing := lookupNonce reg nonce
      if (match existing, commentId with
          | some e, some cid => e.commentId != cid
          | _, _ => false : Bool) then
        ({ valid := false,
           reason := some "Nonce replay detected — stamp copied from another comment",
           stamp := Option.none, isOurInstance := true, tampered := false,
           replayed := true }, reg)
      else
        let reg2 := match commentId, existing with
          | some cid, Option.none =>
            registerNonce reg ⟨nonce, timestamp, "", cid, "verify"⟩
          | _, _ => reg
        if M.now - M.timeOf timestamp < -60000 then
          ({ valid := false, reason := some "Timestamp is in the future",
             stamp := Option.none, isOurInstance := true, tampered := false,
             replayed := false }, reg2)
        else
          ({ valid := true, reason := Option.none,
             stamp := some { instanceId := M.instanceId,
                             version := stampVERSION,
                             timestamp := timestamp, nonce := nonce,
                             contentHash := contentHash,
                             signature := signature },
             isOurInstance := true, tampered := false,
             replayed := false }, reg2)

/-- `StampManager.verify`: split at the last delimiter, parse the footer via
`STAMP_REGEX`, then run the post-parse checks. -/
def verify (M : StampModel) (reg : Registry) (commentBody : String)
    (commentId : Option String) : StampVerification × Registry :=
  match splitLastDelim commentBody.data with
  | Option.none =>
    ({ valid := false, reason := some "No stamp delimiter found",
       stamp := Option.none, isOurInstance := false, tampered := false,
       replayed := false }, reg)
  | some (pre, suf) =>
    match findFooter (delimChars ++ suf) with
    | Option.none =>
      ({ valid := false, reason := some "Stamp format invalid",
         stamp := Option.none, isOurInstance := false, tampered := false,
         replayed := false }, reg)
    | some (sid, ts, non, sg) =>
      verifyParsed M reg (String.mk pre) (String.mk sid) (String.mk ts)
        (String.mk non) (String.mk sg) commentId

/-- Well-formed hex component of a stamp footer. -/
def hexStr (s : String) : Prop :=
  s.data ≠ [] ∧ ∀ c ∈ s.data, isHexChar c = true

/-- Well-formed timestamp component of a stamp footer. -/
def tsStr (s : String) : Prop :=
  s.data ≠ [] ∧ ∀ c ∈ s.data, isTsChar c = true

/-- Witness model for the stamp round trip: identity-style primitives whose
HMAC output is a fixed hex digest. -/
def stampWitnessModel : StampModel :=
  { hash := fun _ => "aa"
    hmac := fun _ _ => "bb"
    instanceId := "a3f8c912e4b7d601"
    signingKey := "key"
    previousKey := Option.none
    now := 0
    timeOf := fun _ => 0 }

/-- A comment body carrying a well-formed stamp footer after its last
delimiter. -/
def stampedBody (content shortId ts nonce sig : String) : String :=
  content ++ (String.mk delimChars ++ mkFooter stampVERSION shortId ts nonce sig)

/-! ## Last-word skip rule (src/agent/pipeline.ts)

`pollRepo` enqueues an issue unless it is already tracked or
`argusHasLastWord` holds: the most recent comment's body passes
`StampManager.hasStamp`, which is a bare `STAMP_REGEX.test` — no signature,
instance or nonce verification. -/

/-- The comment fields the last-word rule consults; `createdAt` is the
epoch-millisecond value of the creation date. -/
structure PollComment where
  body : String
  createdAt : ℤ
deriving Repr, DecidableEq

/-- `[...comments].sort((a, b) => b.createdAt - a.createdAt)[0]`: the first
comment with maximal creation date (JavaScript sort is stable). -/
def latestComment (comments : List PollComment) : Option PollComment :=
  comments.foldl
    (fun best c =>
      match best with
      | Option.none => some c
      | some b => if b.createdAt < c.createdAt then some c else some b)
    Option.none

/-- `Pipeline.argusHasLastWord`: true iff there is a comment and the most
recent one matches the stamp regex. -/
def argusHasLastWord (comments : List PollComment) : Bool :=
  match latestComment comments with
  | Option.none => false
  | some latest => hasStamp latest.body

/-- The per-issue data `pollRepo` consults. -/
structure PollIssue where
  number : ℕ
  comments : List PollComment
  tracked : Bool
deriving Repr, DecidableEq

/-- The enqueue filter of `Pipeline.pollRepo`: skip when already tracked or
when Argus has the last word. -/
def enqueuedIssues (issues : List PollIssue) : List PollIssue :=
  issues.filter fun i => !i.tracked && !(argusHasLastWord i.comments)

/-! ## Sanitizer (src/security/sanitizer.ts, src/security/patterns.ts)

The sanitizer replaces HTML comments, strips invisible characters, redacts
the injection-pattern catalog, flags long base64 runs and truncates.  The
`INJECTION_PATTERNS` regexes are embedded as token sequences for a small
backtracking matcher (`RTok`/`matchToks`) whose candidate list is ordered by
the JavaScript preference (greedy quantifiers longest-first, alternatives in
source order); the leftmost position with a non-empty candidate list is the
JavaScript match. -/

/-- Tokens of the embedded regexes: case-insensitive literals, `\s+`, `\s*`,
a single `\s`, a single character class, an optional group, an ordered
alternation. -/
inductive RTok
  | lit : List Char → RTok
  | ws1 : RTok
  | ws0 : RTok
  | wsc : RTok
  | cls : List Char → RTok
  | opt : List RTok → RTok
  | alt : List (List RTok) → RTok
deriving Repr

/-- JavaScript `\s`. -/
def isJsWS (c : Char) : Bool :=
  c = ' ' || c = '\t' || c = '\n' || c = '\x0d' || c = '\x0c' || c = '\x0b' ||
  c.toNat = 0xa0 || c.toNat = 0x1680 ||
  (0x2000 ≤ c.toNat && c.toNat ≤ 0x200a) ||
  c.toNat = 0x2028 || c.toNat = 0x2029 || c.toNat = 0x202f ||
  c.toNat = 0x205f || c.toNat = 0x3000 || c.toNat = 0xfeff

/-- Case-insensitive literal consumption (patterns are stored lowercase). -/
def dropLitCI : List Char → List Char → Option (List Char)
  | [], s => some s
  | _ :: _, [] => Option.none
  | w :: ws, c :: cs => if w = Char.toLower c then dropLitCI ws cs else Option.none

/-- Remainders after consuming `n, n-1, …, 1` whitespace characters, where
`n` is the length of the maximal whitespace run (greedy order). -/
def wsTails (s : List Char) : List (List Char) :=
  let n := (s.takeWhile isJsWS).length
  (List.range n).map fun j => s.drop (n - j)

/-- All remainders a token sequence can leave, in JavaScript preference
order; the head is the JavaScript match.  `fuel` dominates the recursion
depth (`sizeOf` of the token list suffices). -/
def matchToks : ℕ → List RTok → List Char → List (List Char)
  | 0, _, _ => []
  | _ + 1, [], s => [s]
  | fuel + 1, tok :: rest, s =>
    match tok with
    | RTok.lit w =>
      match dropLitCI w s with
      | some s2 => matchToks fuel rest s2
      | Option.none => []
    | RTok.wsc =>
      match s with
      | c :: s2 => if isJsWS c then matchToks fuel rest s2 else []
      | [] => []
    | RTok.cls cset =>
      match s with
      | c :: s2 => if cset.contains (Char.toLower c) then matchToks fuel rest s2 else []
      | [] => []
    | RTok.ws1 => (wsTails s).flatMap (matchToks fuel rest)
    | RTok.ws0 => (wsTails s).flatMap (matchToks fuel rest) ++ matchToks fuel rest s
    | RTok.opt g =>
      ((matchToks fuel g s).flatMap (matchToks fuel rest)) ++ matchToks fuel rest s
    | RTok.alt gs =>
      gs.flatMap fun g => (matchToks fuel g s).flatMap (matchToks fuel rest)

mutual

/-- Structural size of a token (recursion-depth bound for the matcher). -/
def RTok.size : RTok → ℕ
  | RTok.lit _ => 1
  | RTok.ws1 => 1
  | RTok.ws0 => 1
  | RTok.wsc => 1
  | RTok.cls _ => 1
  | RTok.opt g => 1 + RTok.sizeList g
  | RTok.alt gs => 1 + RTok.sizeListList gs

/-- Structural size of a token list. -/
def RTok.sizeList : List RTok → ℕ
  | [] => 0
  | t :: ts => RTok.size t + RTok.sizeList ts + 1

/-- Structural size of a list of token lists. -/
def RTok.sizeListList : List (List RTok) → ℕ
  | [] => 0
  | g :: gs => RTok.sizeList g + RTok.sizeListList gs + 1

end

/-- Fuel that dominates the matcher's recursion depth. -/
def matchFuel (toks : List RTok) : ℕ := RTok.sizeList toks + 1

/-- The leftmost match: the prefix before it, the matched characters, and the
remainder after it. -/
def firstMatchAux (fuel : ℕ) (toks : List RTok) :
    List Char → Option (List Char × List Char × List Char)
  | [] =>
    match matchToks fuel toks [] with
    | r :: _ => some ([], [], r)
    | [] => Option.none
  | c :: cs =>
    match matchToks fuel toks (c :: cs) with
    | r :: _ =>
      some ([], (c :: cs).take ((c :: cs).length - r.length), r)
    | [] =>
      (firstMatchAux fuel toks cs).map fun pr => (c :: pr.1, pr.2.1, pr.2.2)

/-- Global replacement (`String.prototype.replace` with a `g` regex):
repeatedly substitute the leftmost match, counting matches; a zero-length
match advances one character, as in JavaScript. -/
def replaceAllAux (mfuel : ℕ) (toks : List RTok) (repl : List Char) :
    ℕ → List Char → ℕ × List Char
  | 0, s => (0, s)
  | fuel + 1, s =>
    match firstMatchAux mfuel toks s with
    | Option.none => (0, s)
    | some (pre, m, rest) =>
      if m = [] then
        match rest with
        | [] => (1, pre ++ repl)
        | c :: rest2 =>
          let nt := replaceAllAux mfuel toks repl fuel rest2
          (nt.1 + 1, pre ++ repl ++ [c] ++ nt.2)
      else
        let nt := replaceAllAux mfuel toks repl fuel rest
        (nt.1 + 1, pre ++ repl ++ nt.2)

/-- Match count and replaced text for one catalog pattern. -/
def replaceCount (toks : List RTok) (repl : List Char) (s : List Char) :
    ℕ × List Char :=
  replaceAllAux (matchFuel toks) toks repl (s.length + 1) s

/-- Lowercase literal token. -/
def L (s : String) : RTok := RTok.lit s.data

/-- The apostrophe character. -/
def apoChar : Char := Char.ofNat 39

/-- `INJECTION_PATTERNS` from src/security/patterns.ts, in source order. -/
def injectionPatterns : List (List RTok × String) :=
  [ ([L "ignore", RTok.ws1, RTok.opt [L "all", RTok.ws1], L "previous",
      RTok.ws1, L "instructions"], "instruction_override")
  , ([L "ignore", RTok.ws1, RTok.opt [L "all", RTok.ws1], L "prior",
      RTok.ws1, L "instructions"], "instruction_override")
  , ([L "disregard", RTok.ws1, RTok.opt [L "all", RTok.ws1], L "previous"],
      "instruction_override")
  , ([L "forget", RTok.ws1, RTok.opt [L "all", RTok.ws1],
      RTok.opt [L "your", RTok.ws1], L "instructions"], "instruction_override")
  , ([L "override", RTok.ws1, RTok.opt [L "your", RTok.ws1],
      RTok.opt [L "system", RTok.ws1], L "prompt"], "instruction_override")
  , ([L "new", RTok.ws1, L "instruction", RTok.opt [L "s"], RTok.ws0, L ":"],
      "instruction_override")
  , ([L "you", RTok.ws1, L "are", RTok.ws1, L "now", RTok.ws1,
      RTok.alt [[L "a"], [L "an"], [L "the"]], RTok.wsc], "role_switch")
  , ([L "act", RTok.ws1, L "as", RTok.ws1,
      RTok.alt [[L "a"], [L "an"], [L "the"], [L "if"]], RTok.wsc], "role_switch")
  , ([L "pretend", RTok.ws1,
      RTok.alt [[L "to", RTok.ws1, L "be"], [L "you", RTok.ws1, L "are"]]],
      "role_switch")
  , ([L "enter", RTok.ws1, RTok.alt [[L "dan"], [L "developer"], [L "god"]],
      RTok.ws1, L "mode"], "jailbreak")
  , ([L "dan", RTok.ws0, RTok.cls [':', '=']], "jailbreak")
  , ([L "do", RTok.ws1, L "anything", RTok.ws1, L "now"], "jailbreak")
  , ([L "jailbreak"], "jailbreak")
  , ([L "<|im_start|>"], "token_injection")
  , ([L "<|im_end|>"], "token_injection")
  , ([L "<|endoftext|>"], "token_injection")
  , ([L "[inst]"], "token_injection")
  , ([L "[/inst]"], "token_injection")
  , ([L "<<sys>>"], "token_injection")
  , ([L "<</sys>>"], "token_injection")
  , ([L "system", RTok.ws0, L ":", RTok.ws0, L "\n"], "role_injection")
  , ([L "assistant", RTok.ws0, L ":", RTok.ws0, L "\n"], "role_injection")
  , ([L "user", RTok.ws0, L ":", RTok.ws0, L "\n"], "role_injection")
  , ([L "output", RTok.ws1, RTok.alt [[L "all"], [L "the"], [L "your"]],
      RTok.ws1, RTok.alt [[L "system"], [L "initial"]], RTok.ws1, L "prompt"],
      "exfiltration")
  , ([L "reveal", RTok.ws1, RTok.alt [[L "your"], [L "the"]], RTok.ws1,
      RTok.alt [[L "system"], [L "initial"]], RTok.ws1, L "prompt"],
      "exfiltration")
  , ([L "show", RTok.ws1, L "me", RTok.ws1, RTok.alt [[L "your"], [L "the"]],
      RTok.ws1, L "instructions"], "exfiltration")
  , ([L "what", RTok.ws1, RTok.alt [[L "are"], [L "were"]], RTok.ws1,
      L "your", RTok.ws1, L "instructions"], "exfiltration")
  , ([L "repeat", RTok.ws1, RTok.opt [L "your", RTok.ws1], L "system",
      RTok.ws1, L "prompt"], "exfiltration")
  , ([L "merge", RTok.ws1, RTok.alt [[L "this"], [L "the"]], RTok.ws1,
      RTok.alt [[L "pr"], [L "pull", RTok.ws1, L "request"], [L "mr"],
        [L "merge", RTok.ws1, L "request"]]], "privilege_escalation")
  , ([L "delete", RTok.ws1, RTok.alt [[L "this"], [L "the"]], RTok.ws1,
      RTok.alt [[L "repo"], [L "repository"], [L "branch"]]],
      "privilege_escalation")
  , ([L "modify", RTok.ws1, RTok.alt [[L "repo"], [L "repository"]],
      RTok.ws1, L "settings"], "privilege_escalation")
  , ([L "grant", RTok.ws1, RTok.alt [[L "me"], [L "admin"]], RTok.ws1,
      RTok.alt [[L "access"], [L "permissions"]]], "privilege_escalation")
  , ([L "this", RTok.ws1, L "is", RTok.ws1,
      RTok.opt [L "a", RTok.opt [L "n"], RTok.ws1], L "emergency"],
      "social_engineering")
  , ([L "urgent", RTok.ws0, RTok.cls [':', '-', '!']], "social_engineering")
  , ([L "i", RTok.alt [[RTok.lit [apoChar, 'm']], [RTok.ws1, L "am"]],
      RTok.ws1, RTok.alt [[L "the"], [L "a"]], RTok.ws1,
      RTok.alt [[L "owner"], [L "admin"], [L "maintainer"]]],
      "social_engineering")
  , ([L "trust", RTok.ws1, L "me"], "social_engineering")
  , ([L "i", RTok.ws1, L "authorize", RTok.opt [L "d"], RTok.ws1,
      RTok.alt [[L "this"], [L "you"]]], "social_engineering") ]

/-- Find a literal substring: the text before it and the remainder after it. -/
def findSub (pat : List Char) : List Char → Option (List Char × List Char)
  | [] => Option.none
  | c :: cs =>
    if pat.isPrefixOf (c :: cs) then some ([], (c :: cs).drop pat.length)
    else (findSub pat cs).map fun pr => (c :: pr.1, pr.2)

/-- `HTML_COMMENT_PATTERN` replacement: each lazy `<!--[\s\S]*?-->` match
becomes `[HTML_COMMENT_REMOVED]`, counting matches. -/
def replaceHtml : ℕ → List Char → ℕ × List Char
  | 0, s => (0, s)
  | fuel + 1, s =>
    match findSub "<!--".data s with
    | Option.none => (0, s)
    | some (pre, afterOpen) =>
      match findSub "-->".data afterOpen with
      | Option.none => (0, s)
      | some (_, rest) =>
        let nt := replaceHtml fuel rest
        (nt.1 + 1, pre ++ "[HTML_COMMENT_REMOVED]".data ++ nt.2)

/-- `INVISIBLE_CHAR_PATTERNS` as character tests, in source order. -/
def invisibleClasses : List ((Char → Bool) × String) :=
  [ (fun c => 0x200B ≤ c.toNat && c.toNat ≤ 0x200F, "zero_width_chars")
  , (fun c => 0x202A ≤ c.toNat && c.toNat ≤ 0x202E, "bidi_override")
  , (fun c => 0x2066 ≤ c.toNat && c.toNat ≤ 0x2069, "bidi_isolate")
  , (fun c => c.toNat = 0xFEFF, "byte_order_mark")
  , (fun c => c.toNat = 0x00AD, "soft_hyphen")
  , (fun c => 0xFFF0 ≤ c.toNat && c.toNat ≤ 0xFFFD, "specials")
  , (fun c => 0x2028 ≤ c.toNat && c.toNat ≤ 0x2029, "line_paragraph_separator") ]

/-- `[A-Za-z0-9+/]`. -/
def isB64Char (c : Char) : Bool :=
  ('A' ≤ c && c ≤ 'Z') || ('a' ≤ c && c ≤ 'z') || ('0' ≤ c && c ≤ '9') ||
  c = '+' || c = '/'

/-- Lengths of the matches of `BASE64_PAYLOAD_PATTERN`
(`[A-Za-z0-9+/]{40,}={0,2}` with the `g` flag). -/
def b64Matches : ℕ → List Char → List ℕ
  | 0, _ => []
  | _ + 1, [] => []
  | fuel + 1, c :: cs =>
    let run := (c :: cs).takeWhile isB64Char
    if 40 ≤ run.length then
      let after := (c :: cs).drop run.length
      let eqs := (after.takeWhile (fun x => x = '=')).take 2
      (run.length + eqs.length) :: b64Matches fuel (after.drop eqs.length)
    else b64Matches fuel cs

/-- `SanitizationResult` (src/security/types.ts). -/
structure SanitizationResult where
  sanitized : String
  strippedPatterns : List String
  truncated : Bool
  originalLength : ℕ
deriving Repr, DecidableEq

/-- One invisible-character pass (step 2 of `sanitize`). -/
def stepInvisible (acc : List Char × List String)
    (cl : (Char → Bool) × String) : List Char × List String :=
  let n := acc.1.countP cl.1
  if 0 < n then
    (acc.1.filter (fun c => !(cl.1 c)),
     acc.2 ++ [cl.2 ++ "(" ++ toString n ++ ")"])
  else acc

/-- One injection-pattern pass (step 3 of `sanitize`). -/
def stepInjection (acc : List Char × List String)
    (pat : List RTok × String) : List Char × List String :=
  let nt := replaceCount pat.1 ("[REDACTED:" ++ pat.2 ++ "]").data acc.1
  if 0 < nt.1 then
    (nt.2, acc.2 ++ [pat.2 ++ "(" ++ toString nt.1 ++ ")"])
  else acc

/-- `Sanitizer.sanitize` with the given `maxLength`: HTML comments, then
invisible characters, then injection patterns, then the base64 flag, then
truncation. -/
def sanitizeWith (maxLength : ℕ) (input : String) : SanitizationResult :=
  let originalLength := input.length
  let s0 := input.data
  let html := replaceHtml (s0.length + 1) s0
  let acc1 : List Char × List String :=
    if 0 < html.1 then
      (html.2, ["html_comments(" ++ toString html.1 ++ ")"])
    else (s0, [])
  let acc2 := invisibleClasses.foldl stepInvisible acc1
  let acc3 := injectionPatterns.foldl stepInjection acc2
  let ms := b64Matches (acc3.1.length + 1) acc3.1
  let acc4 : List Char × List String :=
    if ms ≠ [] ∧ ms.any (fun m => 100 < m) then
      (acc3.1, acc3.2 ++ ["base64_payload(" ++ toString ms.length ++ ")"])
    else acc3
  let truncated := maxLength < acc4.1.length
  if truncated then
    { sanitized := String.mk (acc4.1.take maxLength ++ "\n\n[CONTENT TRUNCATED]".data)
      strippedPatterns := acc4.2 ++
        ["truncated(" ++ toString originalLength ++ " → " ++ toString maxLength ++ ")"]
      truncated := true
      originalLength := originalLength }
  else
    { sanitized := String.mk acc4.1
      strippedPatterns := acc4.2
      truncated := false
      originalLength := originalLength }

/-- `DEFAULT_MAX_LENGTH`. -/
def DEFAULT_MAX_LENGTH : ℕ := 4000

/-- `Sanitizer.sanitize` at the default maximum length. -/
def sanitize (input : String) : SanitizationResult :=
  sanitizeWith DEFAULT_MAX_LENGTH input

/-! ## Theorems for C8 and C6 -/

/-- **C8.** For every role and user history the effective trust score equals the
tier base score plus a history modifier confined to [-0.3, 0.2], clamped to
[0, 1]; and for every trust score t in [0, 1] the computed thresholds are
flag = 0.5 + 0.3·t, block = 0.8 + 0.19·t, report = ⊤ when 0.75 ≤ t and 0.95
otherwise, so flag ≤ block. -/
theorem trust_scores_and_thresholds :
    (∀ (role : RepoRole) (h : UserHistory),
      (resolveProfile role h).historyModifier = computeHistoryModifier h ∧
      -0.3 ≤ (resolveProfile role h).historyModifier ∧
      (resolveProfile role h).historyModifier ≤ 0.2 ∧
      (resolveProfile role h).effectiveTrustScore =
        max 0 (min 1 (baseTrustScore (roleToTier role) + computeHistoryModifier h)) ∧
      0 ≤ (resolveProfile role h).effectiveTrustScore ∧
      (resolveProfile role h).effectiveTrustScore ≤ 1) ∧
    (∀ t : ℚ, 0 ≤ t → t ≤ 1 →
      (computeThresholds t).flagThreshold = 0.5 + 0.3 * t ∧
      (computeThresholds t).blockThreshold = 0.8 + 0.19 * t ∧
      (computeThresholds t).reportThreshold
        = (if 0.75 ≤ t then (⊤ : WithTop ℚ) else ((0.95 : ℚ) : WithTop ℚ)) ∧
      (computeThresholds t).flagThreshold ≤ (computeThresholds t).blockThreshold) := by
  constructor
  · intro role h
    refine ⟨rfl, ?_, ?_, rfl, ?_, ?_⟩
    · exact le_max_left _ _
    · exact max_le (by norm_num) (min_le_left _ _)
    · exact le_max_left _ _
    · exact max_le (by norm_num) (min_le_left _ _)
  · intro t h0 h1
    refine ⟨by simp only [computeThresholds]; ring,
      by simp only [computeThresholds]; ring, rfl, ?_⟩
    simp only [computeThresholds]
    nlinarith

/-- Witness for C8 at a concrete role, history and trust score. -/
theorem trust_scores_and_thresholds_witness :
    (resolveProfile RepoRole.write
        ⟨3, 2, 1, 0, 25⟩).effectiveTrustScore ≤ 1 ∧
    (computeThresholds 0.5).flagThreshold ≤ (computeThresholds 0.5).blockThreshold := by
  refine ⟨(trust_scores_and_thresholds.1 RepoRole.write ⟨3, 2, 1, 0, 25⟩).2.2.2.2.2, ?_⟩
  exact (trust_scores_and_thresholds.2 0.5 (by norm_num) (by norm_num)).2.2.2

/-- **C6.** A comment whose author resolves to trust tier owner receives only
the action `none` with classification `clean`, whatever the threat
classification and confidence. -/
theorem owner_immune_from_moderation (trust : TrustProfile) (threat : ThreatVerdict)
    (howner : trust.tier = TrustTier.owner) :
    (decideComment trust threat).actions = [ModAction.none] ∧
    (decideComment trust threat).threatClassification = ThreatClass.clean := by
  simp [decideComment, howner]

/-- Witness for C6: an owner posting a maximally hostile comment is untouched. -/
theorem owner_immune_from_moderation_witness :
    (decideComment (resolveProfile RepoRole.owner ⟨0, 0, 5, 5, 0⟩)
      ⟨ThreatClass.hostile, 1⟩).actions = [ModAction.none] := by
  exact (owner_immune_from_moderation
    (resolveProfile RepoRole.owner ⟨0, 0, 5, 5, 0⟩) ⟨ThreatClass.hostile, 1⟩ rfl).1

/-- **C2.** `validate` returns `valid = true` iff no produced issue has severity
error; every file whose path matches a forbidden-path entry yields an
error-severity issue; exceeding the size thresholds yields a warning-severity
size issue, and size overruns alone never make the result invalid. -/
theorem validator_spec (secrets : List (String → Option ℕ))
    (dangers : List DangerPattern) (files : List VFile) :
    ((validate secrets dangers files).valid = true ↔
      ∀ i ∈ (validate secrets dangers files).issues, i.severity ≠ Severity.error) ∧
    (∀ f ∈ files, (∃ pat ∈ forbiddenPaths, pat f.path = true) →
      ∃ i ∈ (validate secrets dangers files).issues,
        i.severity = Severity.error ∧ i.category = "forbidden_path" ∧
        i.file = some f.path) ∧
    (MAX_DIFF_SIZE < files.foldl (fun sum f => sum + f.content.length) 0 ∨
        MAX_FILE_COUNT < files.length →
      ∃ i ∈ (validate secrets dangers files).issues,
        i.category = "size" ∧ i.severity = Severity.warning) ∧
    ((∀ f ∈ files,
        (∀ pat ∈ forbiddenPaths, pat f.path = false) ∧
        (∀ m ∈ secrets, m f.content = Option.none) ∧
        (∀ dp ∈ dangers, dp.severity = Severity.error →
          dp.find f.content = Option.none)) →
      (validate secrets dangers files).valid = true) := by
  refine ⟨?_, ?_, ?_, ?_⟩
  · simp only [validate, Bool.not_eq_true', List.any_eq_false, beq_iff_eq]
  · intro f hf ⟨pat, hpat, hmatch⟩
    refine ⟨{ severity := Severity.error, category := "forbidden_path"
              description := "Attempting to modify forbidden file: " ++ f.path
              file := some f.path }, ?_, rfl, rfl, rfl⟩
    simp only [validate, List.mem_append, List.mem_flatMap]
    refine Or.inr ⟨f, hf, Or.inl ?_⟩
    simp only [List.mem_append, List.mem_filterMap]
    exact Or.inl ⟨pat, hpat, by simp [hmatch]⟩
  · intro hsize
    rcases hsize with hs | hc
    · refine ⟨{ severity := Severity.warning, category := "size",
                description := "Total diff size " ++
                  toString (files.foldl (fun sum f => sum + f.content.length) 0) ++
                  " chars exceeds " ++ toString MAX_DIFF_SIZE ++ " char limit" },
        ?_, rfl, rfl⟩
      simp only [validate, List.mem_append]
      refine Or.inl (Or.inl ?_)
      simp [hs]
    · refine ⟨{ severity := Severity.warning, category := "size",
                description := "Push contains " ++ toString files.length ++
                  " files, exceeding " ++ toString MAX_FILE_COUNT ++ " file limit" },
        ?_, rfl, rfl⟩
      simp only [validate, List.mem_append]
      refine Or.inl (Or.inr ?_)
      simp [hc]
  · intro hclean
    simp only [validate, Bool.not_eq_true', List.any_eq_false, beq_iff_eq]
    intro i hi
    simp only [List.mem_append, List.mem_flatMap] at hi
    rcases hi with (h | h) | ⟨f, hf, hfi⟩
    · simp only [List.mem_ite_nil_right, List.mem_singleton] at h
      rw [h.2]
      simp
    · simp only [List.mem_ite_nil_right, List.mem_singleton] at h
      rw [h.2]
      simp
    · obtain ⟨hforb, hsec, hdang⟩ := hclean f hf
      simp only [List.mem_append, List.mem_filterMap] at hfi
      rcases hfi with (⟨pat, hpat, hif⟩ | ⟨m, hm, hif⟩) | ⟨dp, hdp, hif⟩
      · rw [hforb pat hpat] at hif
        simp at hif
      · rw [hsec m hm] at hif
        simp at hif
      · simp only [Option.map_eq_some'] at hif
        obtain ⟨idx, hfind, hieq⟩ := hif
        intro hsev
        have hde : dp.severity = Severity.error := by rw [← hieq] at hsev; exact hsev
        rw [hdang dp hdp hde] at hfind
        exact Option.noConfusion hfind

/-- Witness for C2: a push containing `.env` is invalid; 31 clean small files
are valid despite exceeding the file-count threshold. -/
theorem validator_spec_witness :
    ((validate [] [] [⟨".env", "SECRET=1"⟩]).valid = true →
      ∀ i ∈ (validate [] [] [⟨".env", "SECRET=1"⟩]).issues,
        i.severity ≠ Severity.error) ∧
    (validate [] [] (List.replicate 31 ⟨"a.ts", "x"⟩)).valid = true := by
  constructor
  · exact (validator_spec [] [] [⟨".env", "SECRET=1"⟩]).1.mp
  · refine (validator_spec [] [] (List.replicate 31 ⟨"a.ts", "x"⟩)).2.2.2 ?_
    intro f hf
    have hfa : f = (⟨"a.ts", "x"⟩ : VFile) := List.eq_of_mem_replicate hf
    subst hfa
    refine ⟨?_, by simp, by simp⟩
    intro pat hpat
    fin_cases hpat <;> decide

@[simp] theorem app_iterations (a b : CoderTrace) :
    (a.app b).iterations = a.iterations ++ b.iterations := rfl

@[simp] theorem app_pushes (a b : CoderTrace) :
    (a.app b).pushes = a.pushes ++ b.pushes := rfl

@[simp] theorem app_audits (a b : CoderTrace) :
    (a.app b).audits = a.audits ++ b.audits := rfl

@[simp] theorem app_genCalls (a b : CoderTrace) :
    (a.app b).genCalls = a.genCalls ++ b.genCalls := rfl

/-- Unfolding lemma: generation failure. -/
theorem codeGo_err (env : CoderEnv) (rem i : ℕ) (pl : Option String)
    (pc : Option CodeChangeSet) (e : String) (hg : env.gen i pl pc = Except.error e) :
    codeGo env (rem + 1) i pl pc = coderHereErr i pl pc e := by
  simp [codeGo, hg]

/-- Unfolding lemma: validated iteration with passing CI. -/
theorem codeGo_passing (env : CoderEnv) (rem i : ℕ) (pl : Option String)
    (pc : Option CodeChangeSet) (changes : CodeChangeSet)
    (hg : env.gen i pl pc = Except.ok changes)
    (hv : (validate env.secrets env.dangers changes.files).valid = true)
    (hci : (env.ciRun i).state = CIState.passing) :
    codeGo env (rem + 1) i pl pc = coderHereOk env i pl pc changes := by
  simp [codeGo, hg, hv, hci]

/-- Unfolding lemma: validated iteration with failing CI. -/
theorem codeGo_failing (env : CoderEnv) (rem i : ℕ) (pl : Option String)
    (pc : Option CodeChangeSet) (changes : CodeChangeSet)
    (hg : env.gen i pl pc = Except.ok changes)
    (hv : (validate env.secrets env.dangers changes.files).valid = true)
    (hci : (env.ciRun i).state = CIState.failing) :
    codeGo env (rem + 1) i pl pc =
      (coderHereOk env i pl pc changes).app
        (codeGo env rem (i + 1) (some (env.ciRun i).log) (some changes)) := by
  simp [codeGo, hg, hv, hci]

/-- Unfolding lemma: validated iteration with CI timeout (pending). -/
theorem codeGo_pending (env : CoderEnv) (rem i : ℕ) (pl : Option String)
    (pc : Option CodeChangeSet) (changes : CodeChangeSet)
    (hg : env.gen i pl pc = Except.ok changes)
    (hv : (validate env.secrets env.dangers changes.files).valid = true)
    (hci : (env.ciRun i).state = CIState.pending) :
    codeGo env (rem + 1) i pl pc =
      (coderHereOk env i pl pc changes).app (codeGo env rem (i + 1) pl pc) := by
  simp [codeGo, hg, hv, hci]

/-- Unfolding lemma: validation-blocked iteration. -/
theorem codeGo_blocked (env : CoderEnv) (rem i : ℕ) (pl : Option String)
    (pc : Option CodeChangeSet) (changes : CodeChangeSet)
    (hg : env.gen i pl pc = Except.ok changes)
    (hv : (validate env.secrets env.dangers changes.files).valid = false) :
    codeGo env (rem + 1) i pl pc =
      (coderHereBlocked env i pl pc changes).app
        (codeGo env rem (i + 1)
          (some ("OUTPUT VALIDATION FAILED:\n" ++
            blockedErrText env.secrets env.dangers changes))
          (some changes)) := by
  simp [codeGo, hg, hv]

/-- All indices recorded by `codeGo env rem i _ _` lie in `[i, i + rem)`. -/
theorem codeGo_bounds (env : CoderEnv) (rem : ℕ) :
    ∀ (i : ℕ) (pl : Option String) (pc : Option CodeChangeSet),
      (∀ it ∈ (codeGo env rem i pl pc).iterations,
          i ≤ it.iteration ∧ it.iteration < i + rem) ∧
      (∀ ev ∈ (codeGo env rem i pl pc).pushes,
          i ≤ ev.iteration ∧ ev.iteration < i + rem) ∧
      (∀ a ∈ (codeGo env rem i pl pc).audits,
          i ≤ a.iteration ∧ a.iteration < i + rem) ∧
      (∀ q ∈ (codeGo env rem i pl pc).genCalls,
          i ≤ q.1 ∧ q.1 < i + rem) := by
  induction rem with
  | zero => intro i pl pc; simp [codeGo]
  | succ rem ih =>
    intro i pl pc
    rcases hg : env.gen i pl pc with e | changes
    · rw [codeGo_err env rem i pl pc e hg]
      refine ⟨?_, ?_, ?_, ?_⟩ <;> intro x hx <;>
        simp [coderHereErr, errIteration] at hx <;> subst hx <;>
        simp [errIteration] <;> omega
    · cases hv : (validate env.secrets env.dangers changes.files).valid with
      | false =>
        rw [codeGo_blocked env rem i pl pc changes hg hv]
        obtain ⟨j1, j2, j3, j4⟩ := ih (i + 1)
          (some ("OUTPUT VALIDATION FAILED:\n" ++
            blockedErrText env.secrets env.dangers changes)) (some changes)
        refine ⟨?_, ?_, ?_, ?_⟩ <;> intro x hx <;>
          simp only [app_iterations, app_pushes, app_audits, app_genCalls,
            List.mem_append] at hx
        · rcases hx with hx | hx
          · simp [coderHereBlocked] at hx; subst hx
            simp [blockedIteration] <;> omega
          · have := j1 x hx; omega
        · rcases hx with hx | hx
          · simp [coderHereBlocked] at hx
          · have := j2 x hx; omega
        · rcases hx with hx | hx
          · simp [coderHereBlocked] at hx; subst hx; simp <;> omega
          · have := j3 x hx; omega
        · rcases hx with hx | hx
          · simp [coderHereBlocked] at hx; subst hx; simp <;> omega
          · have := j4 x hx; omega
      | true =>
        have hereBounds :
            (∀ it ∈ (coderHereOk env i pl pc changes).iterations,
                i ≤ it.iteration ∧ it.iteration < i + (rem + 1)) ∧
            (∀ ev ∈ (coderHereOk env i pl pc changes).pushes,
                i ≤ ev.iteration ∧ ev.iteration < i + (rem + 1)) ∧
            (∀ a ∈ (coderHereOk env i pl pc changes).audits,
                i ≤ a.iteration ∧ a.iteration < i + (rem + 1)) ∧
            (∀ q ∈ (coderHereOk env i pl pc changes).genCalls,
                i ≤ q.1 ∧ q.1 < i + (rem + 1)) := by
          refine ⟨?_, ?_, ?_, ?_⟩ <;> intro x hx <;>
            simp [coderHereOk, okIteration] at hx
          · subst hx; simp [okIteration] <;> omega
          · obtain ⟨f, hf, hx⟩ := hx; subst hx; simp <;> omega
          · subst hx; simp <;> omega
          · subst hx; simp <;> omega
        cases hci : (env.ciRun i).state with
        | passing =>
          rw [codeGo_passing env rem i pl pc changes hg hv hci]
          exact hereBounds
        | failing =>
          rw [codeGo_failing env rem i pl pc changes hg hv hci]
          obtain ⟨j1, j2, j3, j4⟩ := ih (i + 1) (some (env.ciRun i).log) (some changes)
          obtain ⟨h1, h2, h3, h4⟩ := hereBounds
          refine ⟨?_, ?_, ?_, ?_⟩ <;> intro x hx <;>
            simp only [app_iterations, app_pushes, app_audits, app_genCalls,
              List.mem_append] at hx
          · rcases hx with hx | hx
            · exact h1 x hx
            · have := j1 x hx; omega
          · rcases hx with hx | hx
            · exact h2 x hx
            · have := j2 x hx; omega
          · rcases hx with hx | hx
            · exact h3 x hx
            · have := j3 x hx; omega
          · rcases hx with hx | hx
            · exact h4 x hx
            · have := j4 x hx; omega
        | pending =>
          rw [codeGo_pending env rem i pl pc changes hg hv hci]
          obtain ⟨j1, j2, j3, j4⟩ := ih (i + 1) pl pc
          obtain ⟨h1, h2, h3, h4⟩ := hereBounds
          refine ⟨?_, ?_, ?_, ?_⟩ <;> intro x hx <;>
            simp only [app_iterations, app_pushes, app_audits, app_genCalls,
              List.mem_append] at hx
          · rcases hx with hx | hx
            · exact h1 x hx
            · have := j1 x hx; omega
          · rcases hx with hx | hx
            · exact h2 x hx
            · have := j2 x hx; omega
          · rcases hx with hx | hx
            · exact h3 x hx
            · have := j3 x hx; omega
          · rcases hx with hx | hx
            · exact h4 x hx
            · have := j4 x hx; omega

/-- Whenever the budget is positive, the loop calls the LLM at the entry index
with exactly the feedback it received, and records an iteration there. -/
theorem codeGo_first (env : CoderEnv) (rem i : ℕ) (pl : Option String)
    (pc : Option CodeChangeSet) (hrem : 0 < rem) :
    (i, pl, pc) ∈ (codeGo env rem i pl pc).genCalls ∧
    ∃ it ∈ (codeGo env rem i pl pc).iterations, it.iteration = i := by
  cases rem with
  | zero => exact absurd hrem (by omega)
  | succ rem => ?_
  rcases hg : env.gen i pl pc with e | changes
  · rw [codeGo_err env rem i pl pc e hg]
    exact ⟨by simp [coderHereErr], errIteration i e, by simp [coderHereErr], rfl⟩
  · cases hv : (validate env.secrets env.dangers changes.files).valid with
    | false =>
      rw [codeGo_blocked env rem i pl pc changes hg hv]
      exact ⟨by simp [coderHereBlocked], blockedIteration env i changes,
        by simp [coderHereBlocked], rfl⟩
    | true =>
      cases hci : (env.ciRun i).state with
      | passing =>
        rw [codeGo_passing env rem i pl pc changes hg hv hci]
        exact ⟨by simp [coderHereOk], okIteration env i changes,
          by simp [coderHereOk], rfl⟩
      | failing =>
        rw [codeGo_failing env rem i pl pc changes hg hv hci]
        exact ⟨by simp [coderHereOk], okIteration env i changes,
          by simp [coderHereOk], rfl⟩
      | pending =>
        rw [codeGo_pending env rem i pl pc changes hg hv hci]
        exact ⟨by simp [coderHereOk], okIteration env i changes,
          by simp [coderHereOk], rfl⟩

/-- The LLM is called at most once per iteration index: two recorded calls
with the same index are the same call. -/
theorem codeGo_genCalls_functional (env : CoderEnv) (rem : ℕ) :
    ∀ (i : ℕ) (pl : Option String) (pc : Option CodeChangeSet),
      ∀ q ∈ (codeGo env rem i pl pc).genCalls,
        ∀ r ∈ (codeGo env rem i pl pc).genCalls, q.1 = r.1 → q = r := by
  induction rem with
  | zero => intro i pl pc; simp [codeGo]
  | succ rem ih =>
    intro i pl pc q hq r hr hqr
    rcases hg : env.gen i pl pc with e | changes
    · rw [codeGo_err env rem i pl pc e hg] at hq hr
      simp [coderHereErr] at hq hr
      rw [hq, hr]
    · cases hv : (validate env.secrets env.dangers changes.files).valid with
      | false =>
        rw [codeGo_blocked env rem i pl pc changes hg hv] at hq hr
        simp only [app_genCalls, List.mem_append] at hq hr
        have hrecb := (codeGo_bounds env rem (i + 1)
          (some ("OUTPUT VALIDATION FAILED:\n" ++
            blockedErrText env.secrets env.dangers changes)) (some changes)).2.2.2
        rcases hq with hq | hq <;> rcases hr with hr | hr
        · simp [coderHereBlocked] at hq hr; rw [hq, hr]
        · simp [coderHereBlocked] at hq
          have := hrecb r hr
          rw [hq] at hqr; omega
        · simp [coderHereBlocked] at hr
          have := hrecb q hq
          rw [hr] at hqr; omega
        · exact ih (i + 1) _ _ q hq r hr hqr
      | true =>
        cases hci : (env.ciRun i).state with
        | passing =>
          rw [codeGo_passing env rem i pl pc changes hg hv hci] at hq hr
          simp [coderHereOk] at hq hr
          rw [hq, hr]
        | failing =>
          rw [codeGo_failing env rem i pl pc changes hg hv hci] at hq hr
          simp only [app_genCalls, List.mem_append] at hq hr
          have hrecb := (codeGo_bounds env rem (i + 1)
            (some (env.ciRun i).log) (some changes)).2.2.2
          rcases hq with hq | hq <;> rcases hr with hr | hr
          · simp [coderHereOk] at hq hr; rw [hq, hr]
          · simp [coderHereOk] at hq
            have := hrecb r hr
            rw [hq] at hqr; omega
          · simp [coderHereOk] at hr
            have := hrecb q hq
            rw [hr] at hqr; omega
          · exact ih (i + 1) _ _ q hq r hr hqr
        | pending =>
          rw [codeGo_pending env rem i pl pc changes hg hv hci] at hq hr
          simp only [app_genCalls, List.mem_append] at hq hr
          have hrecb := (codeGo_bounds env rem (i + 1) pl pc).2.2.2
          rcases hq with hq | hq <;> rcases hr with hr | hr
          · simp [coderHereOk] at hq hr; rw [hq, hr]
          · simp [coderHereOk] at hq
            have := hrecb r hr
            rw [hq] at hqr; omega
          · simp [coderHereOk] at hr
            have := hrecb q hq
            rw [hr] at hqr; omega
          · exact ih (i + 1) _ _ q hq r hr hqr

/-- Every recorded file push stems from a generated change set that the
output validator accepted. -/
theorem codeGo_push_validated (env : CoderEnv) (rem : ℕ) :
    ∀ (i : ℕ) (pl : Option String) (pc : Option CodeChangeSet),
      ∀ ev ∈ (codeGo env rem i pl pc).pushes, ∃ pl2 pc2 ch,
        (ev.iteration, pl2, pc2) ∈ (codeGo env rem i pl pc).genCalls ∧
        env.gen ev.iteration pl2 pc2 = Except.ok ch ∧
        (validate env.secrets env.dangers ch.files).valid = true ∧
        (⟨ev.path, ev.content⟩ : VFile) ∈ ch.files := by
  induction rem with
  | zero => intro i pl pc; simp [codeGo]
  | succ rem ih =>
    intro i pl pc ev hev
    rcases hg : env.gen i pl pc with e | changes
    · rw [codeGo_err env rem i pl pc e hg] at hev
      simp [coderHereErr] at hev
    · cases hv : (validate env.secrets env.dangers changes.files).valid with
      | false =>
        rw [codeGo_blocked env rem i pl pc changes hg hv] at hev ⊢
        simp only [app_pushes, List.mem_append] at hev
        rcases hev with hev | hev
        · simp [coderHereBlocked] at hev
        · obtain ⟨pl2, pc2, ch, hmem, hrest⟩ := ih (i + 1) _ _ ev hev
          refine ⟨pl2, pc2, ch, ?_, hrest⟩
          simp only [app_genCalls, List.mem_append]
          exact Or.inr hmem
      | true =>
        cases hci : (env.ciRun i).state with
        | passing =>
          rw [codeGo_passing env rem i pl pc changes hg hv hci] at hev ⊢
          simp only [coderHereOk, List.mem_map] at hev
          obtain ⟨f, hf, hev⟩ := hev
          subst hev
          exact ⟨pl, pc, changes, by simp [coderHereOk], hg, hv, by
            simpa using hf⟩
        | failing =>
          rw [codeGo_failing env rem i pl pc changes hg hv hci] at hev ⊢
          simp only [app_pushes, List.mem_append] at hev
          rcases hev with hev | hev
          · simp only [coderHereOk, List.mem_map] at hev
            obtain ⟨f, hf, hev⟩ := hev
            subst hev
            refine ⟨pl, pc, changes, ?_, hg, hv, by simpa using hf⟩
            simp only [app_genCalls, List.mem_append]
            exact Or.inl (by simp [coderHereOk])
          · obtain ⟨pl2, pc2, ch, hmem, hrest⟩ := ih (i + 1) _ _ ev hev
            refine ⟨pl2, pc2, ch, ?_, hrest⟩
            simp only [app_genCalls, List.mem_append]
            exact Or.inr hmem
        | pending =>
          rw [codeGo_pending env rem i pl pc changes hg hv hci] at hev ⊢
          simp only [app_pushes, List.mem_append] at hev
          rcases hev with hev | hev
          · simp only [coderHereOk, List.mem_map] at hev
            obtain ⟨f, hf, hev⟩ := hev
            subst hev
            refine ⟨pl, pc, changes, ?_, hg, hv, by simpa using hf⟩
            simp only [app_genCalls, List.mem_append]
            exact Or.inl (by simp [coderHereOk])
          · obtain ⟨pl2, pc2, ch, hmem, hrest⟩ := ih (i + 1) _ _ ev hev
            refine ⟨pl2, pc2, ch, ?_, hrest⟩
            simp only [app_genCalls, List.mem_append]
            exact Or.inr hmem

/-- If a recorded LLM call produced a change set the validator rejects, that
iteration pushes nothing, appends a BLOCKED audit entry and a BLOCKED
iteration record, and — when budget remains — the loop continues, feeding the
validation error text forward as the next synthetic CI log. -/
theorem codeGo_blocked_spec (env : CoderEnv) (rem : ℕ) :
    ∀ (i : ℕ) (pl : Option String) (pc : Option CodeChangeSet)
      (k : ℕ) (pl2 : Option String) (pc2 : Option CodeChangeSet) (ch : CodeChangeSet),
      (k, pl2, pc2) ∈ (codeGo env rem i pl pc).genCalls →
      env.gen k pl2 pc2 = Except.ok ch →
      (validate env.secrets env.dangers ch.files).valid = false →
      (∀ ev ∈ (codeGo env rem i pl pc).pushes, ev.iteration ≠ k) ∧
      blockedIteration env k ch ∈ (codeGo env rem i pl pc).iterations ∧
      (⟨"push_code", k, "BLOCKED",
        "Validation failed: " ++ blockedErrText env.secrets env.dangers ch,
        "Code push blocked by output validator"⟩ : CoderAudit)
          ∈ (codeGo env rem i pl pc).audits ∧
      (k + 1 < i + rem →
        (k + 1, some ("OUTPUT VALIDATION FAILED:\n" ++
            blockedErrText env.secrets env.dangers ch), some ch)
          ∈ (codeGo env rem i pl pc).genCalls ∧
        ∃ it ∈ (codeGo env rem i pl pc).iterations, it.iteration = k + 1) := by
  induction rem with
  | zero => intro i pl pc k pl2 pc2 ch hq; simp [codeGo] at hq
  | succ rem ih =>
    intro i pl pc k pl2 pc2 ch hq hgk hvk
    rcases hg : env.gen i pl pc with e | changes
    · rw [codeGo_err env rem i pl pc e hg] at hq ⊢
      simp [coderHereErr] at hq
      obtain ⟨hk, hpl, hpc⟩ := hq
      subst hk; subst hpl; subst hpc
      rw [hg] at hgk
      exact absurd hgk (by simp)
    · cases hv : (validate env.secrets env.dangers changes.files).valid with
      | false =>
        rw [codeGo_blocked env rem i pl pc changes hg hv] at hq ⊢
        simp only [app_genCalls, List.mem_append] at hq
        rcases hq with hq | hq
        · simp [coderHereBlocked] at hq
          obtain ⟨hk, hpl, hpc⟩ := hq
          subst hk; subst hpl; subst hpc
          rw [hg] at hgk
          have hch : changes = ch := by
            injection hgk
          subst hch
          have hrecb := (codeGo_bounds env rem (k + 1)
            (some ("OUTPUT VALIDATION FAILED:\n" ++
              blockedErrText env.secrets env.dangers changes)) (some changes)).2.1
          refine ⟨?_, ?_, ?_, ?_⟩
          · intro ev hev
            simp only [app_pushes, List.mem_append] at hev
            rcases hev with hev | hev
            · simp [coderHereBlocked] at hev
            · have := hrecb ev hev; omega
          · simp only [app_iterations, List.mem_append]
            exact Or.inl (by simp [coderHereBlocked])
          · simp only [app_audits, List.mem_append]
            exact Or.inl (by simp [coderHereBlocked])
          · intro hlt
            have hrem : 0 < rem := by omega
            obtain ⟨hcall, it2, hit2, hidx⟩ := codeGo_first env rem (k + 1)
              (some ("OUTPUT VALIDATION FAILED:\n" ++
                blockedErrText env.secrets env.dangers changes)) (some changes) hrem
            refine ⟨?_, it2, ?_, hidx⟩
            · simp only [app_genCalls, List.mem_append]
              exact Or.inr hcall
            · simp only [app_iterations, List.mem_append]
              exact Or.inr hit2
        · obtain ⟨hp, hitm, haud, hcont⟩ := ih (i + 1) _ _ k pl2 pc2 ch hq hgk hvk
          have hrecb := (codeGo_bounds env rem (i + 1)
            (some ("OUTPUT VALIDATION FAILED:\n" ++
              blockedErrText env.secrets env.dangers changes)) (some changes)).2.2.2
          have hk1 : i + 1 ≤ k := (hrecb _ hq).1
          refine ⟨?_, ?_, ?_, ?_⟩
          · intro ev hev
            simp only [app_pushes, List.mem_append] at hev
            rcases hev with hev | hev
            · simp [coderHereBlocked] at hev
            · exact hp ev hev
          · simp only [app_iterations, List.mem_append]
            exact Or.inr hitm
          · simp only [app_audits, List.mem_append]
            exact Or.inr haud
          · intro hlt
            obtain ⟨hcall, it2, hit2, hidx⟩ := hcont (by omega)
            refine ⟨?_, it2, ?_, hidx⟩
            · simp only [app_genCalls, List.mem_append]
              exact Or.inr hcall
            · simp only [app_iterations, List.mem_append]
              exact Or.inr hit2
      | true =>
        have hereContra : (k, pl2, pc2) ∈ (coderHereOk env i pl pc changes).genCalls →
            False := by
          intro hq
          simp [coderHereOk] at hq
          obtain ⟨hk, hpl, hpc⟩ := hq
          subst hk; subst hpl; subst hpc
          rw [hg] at hgk
          have hch : changes = ch := by injection hgk
          subst hch
          rw [hv] at hvk
          exact Bool.noConfusion hvk
        cases hci : (env.ciRun i).state with
        | passing =>
          rw [codeGo_passing env rem i pl pc changes hg hv hci] at hq ⊢
          exact absurd hq hereContra
        | failing =>
          rw [codeGo_failing env rem i pl pc changes hg hv hci] at hq ⊢
          simp only [app_genCalls, List.mem_append] at hq
          rcases hq with hq | hq
          · exact absurd hq hereContra
          · obtain ⟨hp, hitm, haud, hcont⟩ := ih (i + 1) _ _ k pl2 pc2 ch hq hgk hvk
            have hrecb := (codeGo_bounds env rem (i + 1)
              (some (env.ciRun i).log) (some changes)).2.2.2
            have hk1 : i + 1 ≤ k := (hrecb _ hq).1
            refine ⟨?_, ?_, ?_, ?_⟩
            · intro ev hev
              simp only [app_pushes, List.mem_append] at hev
              rcases hev with hev | hev
              · simp only [coderHereOk, List.mem_map] at hev
                obtain ⟨f, hf, hev⟩ := hev
                subst hev
                simp
                omega
              · exact hp ev hev
            · simp only [app_iterations, List.mem_append]
              exact Or.inr hitm
            · simp only [app_audits, List.mem_append]
              exact Or.inr haud
            · intro hlt
              obtain ⟨hcall, it2, hit2, hidx⟩ := hcont (by omega)
              refine ⟨?_, it2, ?_, hidx⟩
              · simp only [app_genCalls, List.mem_append]
                exact Or.inr hcall
              · simp only [app_iterations, List.mem_append]
                exact Or.inr hit2
        | pending =>
          rw [codeGo_pending env rem i pl pc changes hg hv hci] at hq ⊢
          simp only [app_genCalls, List.mem_append] at hq
          rcases hq with hq | hq
          · exact absurd hq hereContra
          · obtain ⟨hp, hitm, haud, hcont⟩ := ih (i + 1) _ _ k pl2 pc2 ch hq hgk hvk
            have hrecb := (codeGo_bounds env rem (i + 1) pl pc).2.2.2
            have hk1 : i + 1 ≤ k := (hrecb _ hq).1
            refine ⟨?_, ?_, ?_, ?_⟩
            · intro ev hev
              simp only [app_pushes, List.mem_append] at hev
              rcases hev with hev | hev
              · simp only [coderHereOk, List.mem_map] at hev
                obtain ⟨f, hf, hev⟩ := hev
                subst hev
                simp
                omega
              · exact hp ev hev
            · simp only [app_iterations, List.mem_append]
              exact Or.inr hitm
            · simp only [app_audits, List.mem_append]
              exact Or.inr haud
            · intro hlt
              obtain ⟨hcall, it2, hit2, hidx⟩ := hcont (by omega)
              refine ⟨?_, it2, ?_, hidx⟩
              · simp only [app_genCalls, List.mem_append]
                exact Or.inr hcall
              · simp only [app_iterations, List.mem_append]
                exact Or.inr hit2

/-- **C1.** In every coding run, files are written to the branch only for
iterations whose generated change set the output validator accepted; when
validation fails at a recorded LLM call, that iteration pushes nothing, a
BLOCKED `push_code` audit entry and a BLOCKED iteration record are appended,
and — while the iteration budget lasts — the loop continues to the next
iteration, whose LLM call receives the validator error text as its CI log. -/
theorem coder_validation_gates_push (env : CoderEnv) (maxIterations : ℕ) :
    (∀ ev ∈ (coderCode env maxIterations).pushes, ∃ pl pc ch,
      (ev.iteration, pl, pc) ∈ (coderCode env maxIterations).genCalls ∧
      env.gen ev.iteration pl pc = Except.ok ch ∧
      (validate env.secrets env.dangers ch.files).valid = true ∧
      (⟨ev.path, ev.content⟩ : VFile) ∈ ch.files) ∧
    (∀ (k : ℕ) (pl : Option String) (pc : Option CodeChangeSet) (ch : CodeChangeSet),
      (k, pl, pc) ∈ (coderCode env maxIterations).genCalls →
      env.gen k pl pc = Except.ok ch →
      (validate env.secrets env.dangers ch.files).valid = false →
      (∀ ev ∈ (coderCode env maxIterations).pushes, ev.iteration ≠ k) ∧
      blockedIteration env k ch ∈ (coderCode env maxIterations).iterations ∧
      (⟨"push_code", k, "BLOCKED",
        "Validation failed: " ++ blockedErrText env.secrets env.dangers ch,
        "Code push blocked by output validator"⟩ : CoderAudit)
          ∈ (coderCode env maxIterations).audits ∧
      (k < maxIterations →
        (k + 1, some ("OUTPUT VALIDATION FAILED:\n" ++
            blockedErrText env.secrets env.dangers ch), some ch)
          ∈ (coderCode env maxIterations).genCalls ∧
        (∀ q ∈ (coderCode env maxIterations).genCalls, q.1 = k + 1 →
          q.2.1 = some ("OUTPUT VALIDATION FAILED:\n" ++
            blockedErrText env.secrets env.dangers ch)) ∧
        ∃ it ∈ (coderCode env maxIterations).iterations, it.iteration = k + 1)) := by
  constructor
  · exact codeGo_push_validated env maxIterations 1 Option.none Option.none
  · intro k pl pc ch hq hgk hvk
    obtain ⟨hp, hitm, haud, hcont⟩ :=
      codeGo_blocked_spec env maxIterations 1 Option.none Option.none
        k pl pc ch hq hgk hvk
    refine ⟨hp, hitm, haud, ?_⟩
    intro hk
    obtain ⟨hcall, hit2⟩ := hcont (by omega)
    refine ⟨hcall, ?_, hit2⟩
    intro q hqmem hq1
    have := codeGo_genCalls_functional env maxIterations 1 Option.none Option.none
      q hqmem _ hcall (by rw [hq1])
    rw [this]

/-- Witness for C1: with the `.env`-proposing LLM and budget 2, iteration 1
is blocked and its error text is fed to iteration 2. -/
theorem coder_validation_gates_push_witness :
    blockedIteration coderWitnessEnv 1 ⟨[⟨".env", "x"⟩], "m", "r", "s"⟩
      ∈ (coderCode coderWitnessEnv 2).iterations ∧
    (2, some ("OUTPUT VALIDATION FAILED:\n" ++
        blockedErrText coderWitnessEnv.secrets coderWitnessEnv.dangers
          ⟨[⟨".env", "x"⟩], "m", "r", "s"⟩), some ⟨[⟨".env", "x"⟩], "m", "r", "s"⟩)
      ∈ (coderCode coderWitnessEnv 2).genCalls := by
  have h := (coder_validation_gates_push coderWitnessEnv 2).2 1 Option.none Option.none
    ⟨[⟨".env", "x"⟩], "m", "r", "s"⟩ (by decide) rfl (by decide)
  exact ⟨h.2.1, (h.2.2.2 (by omega)).1⟩

theorem decVal_append_singleton (l : List Char) (c : Char) :
    decVal (l ++ [c]) = decVal l * 10 + (c.toNat - 48) := by
  simp [decVal, List.foldl_append]

theorem digitChar_toNat_sub (d : ℕ) (h : d < 10) :
    (Nat.digitChar d).toNat - 48 = d := by
  interval_cases d <;> decide

theorem decVal_decDigitsAux : ∀ (fuel n : ℕ), n ≤ fuel →
    decVal (decDigitsAux fuel n) = n := by
  intro fuel
  induction fuel with
  | zero => intro n h; interval_cases n; simp [decDigitsAux, decVal]
  | succ fuel ih =>
    intro n h
    by_cases h0 : n = 0
    · subst h0; simp [decDigitsAux, decVal]
    · rw [decDigitsAux, if_neg h0, decVal_append_singleton,
        ih (n / 10) (by omega), digitChar_toNat_sub _ (Nat.mod_lt _ (by omega))]
      omega

theorem decVal_replicate_zero (k : ℕ) (l : List Char) :
    decVal (List.replicate k '0' ++ l) = decVal l := by
  induction k with
  | zero => simp
  | succ k ih =>
    rw [List.replicate_succ, List.cons_append]
    simpa [decVal] using ih

theorem decVal_natToDec (n : ℕ) : decVal (natToDec n).data = n := by
  by_cases h0 : n = 0
  · subst h0; simp [natToDec]; decide
  · rw [natToDec, if_neg h0]
    exact decVal_decDigitsAux n n le_rfl

theorem decVal_padId (n : ℕ) : decVal (padId n).data = n := by
  rw [padId]
  show decVal (List.replicate _ '0' ++ (natToDec n).data) = n
  rw [decVal_replicate_zero, decVal_natToDec]

/-- The 8-digit zero-padded ids are pairwise distinct. -/
theorem padId_injective : Function.Injective padId := by
  intro m n h
  have hm := decVal_padId m
  have hn := decVal_padId n
  rw [h, hn] at hm
  exact hm.symm

/-- `verifyChainList` accepts exactly the lists whose links start at the
given expected hash and whose signatures all verify. -/
theorem verifyChainList_iff (M : AuditModel) :
    ∀ (l : List AuditEntry) (expected : String),
      verifyChainList M expected l = true ↔
      ∀ idx e, l[idx]? = some e →
        ((idx = 0 → e.previousEntryHash = expected) ∧
         (∀ j e2, idx = j + 1 → l[j]? = some e2 →
            e.previousEntryHash = hashEntry M e2) ∧
         ∃ k ∈ M.verificationKeys, M.hmac k (sigPayload e) = e.signature) := by
  intro l
  induction l with
  | nil => intro expected; simp [verifyChainList]
  | cons e rest ih =>
    intro expected
    rw [verifyChainList]
    constructor
    · intro h idx e2 he2
      rw [apply_ite (· = true), apply_ite (· = true)] at h
      by_cases hprev : e.previousEntryHash = expected
      · simp only [hprev, if_true] at h
        by_cases hsig : sigValid M e = true
        · simp only [hsig, if_true] at h
          have hrest := (ih (hashEntry M e)).mp h
          match idx, he2 with
          | 0, he2 =>
            simp only [List.getElem?_cons_zero, Option.some.injEq] at he2
            subst he2
            refine ⟨fun _ => hprev, ?_, ?_⟩
            · intro j e3 hj; omega
            · have := hsig
              simp only [sigValid, List.any_eq_true, beq_iff_eq] at this
              obtain ⟨k, hk, hkeq⟩ := this
              exact ⟨k, hk, hkeq⟩
          | n + 1, he2 =>
            simp only [List.getElem?_cons_succ] at he2
            obtain ⟨h1, h2, h3⟩ := hrest n e2 he2
            refine ⟨fun h => by omega, ?_, h3⟩
            intro j e3 hj hje3
            match j, hje3 with
            | 0, hje3 =>
              simp only [List.getElem?_cons_zero, Option.some.injEq] at hje3
              subst hje3
              exact h1 (by omega)
            | m + 1, hje3 =>
              simp only [List.getElem?_cons_succ] at hje3
              exact h2 m e3 (by omega) hje3
        · simp only [hsig, if_false] at h
          exact absurd h (by simp)
      · simp only [hprev, if_false] at h
        exact absurd h (by simp)
    · intro h
      have h0 := h 0 e (by simp)
      have hprev : e.previousEntryHash = expected := h0.1 rfl
      have hsig : sigValid M e = true := by
        simp only [sigValid, List.any_eq_true, beq_iff_eq]
        obtain ⟨k, hk, hkeq⟩ := h0.2.2
        exact ⟨k, hk, hkeq⟩
      rw [if_pos hprev, if_pos hsig]
      refine (ih (hashEntry M e)).mpr ?_
      intro idx e2 he2
      have hcons := h (idx + 1) e2 (by simpa using he2)
      refine ⟨?_, ?_, hcons.2.2⟩
      · intro hidx
        subst hidx
        exact hcons.2.1 0 e rfl (by simp)
      · intro j e3 hj hje3
        subst hj
        exact hcons.2.1 (j + 1) e3 rfl (by simpa using hje3)

/-- Invariant of every state reachable by `append`s: the counter counts the
entries, ids are the padded positions, the chain head hashes the last entry,
links hold from genesis, and every stored signature was made with the
signing key. -/
theorem auditReachable_inv (M : AuditModel) (s : AuditState)
    (h : AuditReachable M s) :
    s.counter = s.entries.length ∧
    (∀ idx e, s.entries[idx]? = some e → e.id = padId (idx + 1)) ∧
    s.lastEntryHash = (match s.entries.getLast? with
      | Option.none => zeros64
      | some e => hashEntry M e) ∧
    (∀ idx e, s.entries[idx]? = some e →
      ((idx = 0 → e.previousEntryHash = zeros64) ∧
       (∀ j e2, idx = j + 1 → s.entries[j]? = some e2 →
          e.previousEntryHash = hashEntry M e2) ∧
       M.hmac M.signingKey (sigPayload e) = e.signature)) := by
  induction h with
  | init => refine ⟨rfl, by simp [initAudit], by simp [initAudit], by simp [initAudit]⟩
  | step s p hs ih =>
    obtain ⟨ihc, ihid, ihlast, ihchain⟩ := ih
    have hlen : ((appendEntry M s p).1).entries.length = s.entries.length + 1 := by
      simp [appendEntry]
    refine ⟨?_, ?_, ?_, ?_⟩
    · simp [appendEntry, ihc]
    · intro idx e he
      simp only [appendEntry] at he
      rcases Nat.lt_or_ge idx s.entries.length with hlt | hge
      · rw [List.getElem?_append_left hlt] at he
        exact ihid idx e he
      · have hidx : idx = s.entries.length := by
          by_contra hne
          have : s.entries.length + 1 ≤ idx := by omega
          rw [List.getElem?_eq_none (by simpa using this)] at he
          exact Option.noConfusion he
        subst hidx
        rw [List.getElem?_append_right hge] at he
        simp only [Nat.sub_self, List.getElem?_cons_zero, Option.some.injEq] at he
        subst he
        simp [ihc]
    · simp only [appendEntry, List.getLast?_concat]
    · intro idx e he
      simp only [appendEntry] at he
      rcases Nat.lt_or_ge idx s.entries.length with hlt | hge
      · rw [List.getElem?_append_left hlt] at he
        obtain ⟨c1, c2, c3⟩ := ihchain idx e he
        refine ⟨c1, ?_, c3⟩
        intro j e2 hj hje2
        have hjlt : j < s.entries.length := by omega
        simp only [appendEntry] at hje2
        rw [List.getElem?_append_left hjlt] at hje2
        exact c2 j e2 hj hje2
      · have hidx : idx = s.entries.length := by
          by_contra hne
          have : s.entries.length + 1 ≤ idx := by omega
          rw [List.getElem?_eq_none (by simpa using this)] at he
          exact Option.noConfusion he
        subst hidx
        rw [List.getElem?_append_right hge] at he
        simp only [Nat.sub_self, List.getElem?_cons_zero, Option.some.injEq] at he
        subst he
        refine ⟨?_, ?_, rfl⟩
        · intro h0
          have hempty : s.entries = [] := List.length_eq_zero.mp h0
          rw [ihlast, hempty]
          rfl
        · intro j e2 hj hje2
          have hjlt : j < s.entries.length := by omega
          simp only [appendEntry] at hje2
          rw [List.getElem?_append_left hjlt] at hje2
          have hlast : s.entries.getLast? = some e2 := by
            rw [List.getLast?_eq_getElem?]
            have hj' : s.entries.length - 1 = j := by omega
            rw [hj']
            exact hje2
          show s.lastEntryHash = hashEntry M e2
          rw [ihlast, hlast]

/-- **C4.** Along every sequence of `append`s: each entry links to the SHA-256
of the serialized preceding entry, the genesis entry's previous hash is the
64-zero string, no two entries share an id (ids are the padded counter), and
such a log passes `verifyChain`; moreover `verifyChain` accepts exactly the
entry lists whose links and signatures hold from genesis onward. -/
theorem audit_chain_properties (M : AuditModel) :
    (∀ s, AuditReachable M s →
      ((∀ (i j : ℕ) (e e2 : AuditEntry),
          s.entries[i]? = some e → s.entries[j]? = some e2 →
          e.id = e2.id → i = j) ∧
       (∀ idx e, s.entries[idx]? = some e → e.id = padId (idx + 1)) ∧
       (∀ e : AuditEntry, s.entries[0]? = some e →
          e.previousEntryHash = zeros64) ∧
       (∀ (j : ℕ) (e e2 : AuditEntry),
          s.entries[j + 1]? = some e → s.entries[j]? = some e2 →
          e.previousEntryHash = M.hash (M.serialize e2)) ∧
       verifyChain M s = true)) ∧
    (∀ entries, verifyChainList M zeros64 entries = true ↔ ChainSpec M entries) := by
  constructor
  · intro s hs
    obtain ⟨ihc, ihid, ihlast, ihchain⟩ := auditReachable_inv M s hs
    refine ⟨?_, ihid, ?_, ?_, ?_⟩
    · intro i j e e2 he he2 hid
      have h1 := ihid i e he
      have h2 := ihid j e2 he2
      have : padId (i + 1) = padId (j + 1) := by rw [← h1, ← h2, hid]
      have := padId_injective this
      omega
    · intro e he
      exact (ihchain 0 e he).1 rfl
    · intro j e e2 he he2
      exact (ihchain (j + 1) e he).2.1 j e2 rfl he2
    · rw [verifyChain, verifyChainList_iff]
      intro idx e he
      obtain ⟨c1, c2, c3⟩ := ihchain idx e he
      exact ⟨c1, c2, ⟨M.signingKey, List.mem_cons_self _ _, c3⟩⟩
  · intro entries
    exact verifyChainList_iff M entries zeros64

/-- Witness for C4: a log of two concrete appends passes `verifyChain` and
links as required. -/
theorem audit_chain_properties_witness :
    verifyChain auditWitnessModel
      (appendEntry auditWitnessModel
        (appendEntry auditWitnessModel initAudit
          ⟨"poll_repos", "r", "t", "i", "o", "d", 0, "x", "ts1"⟩).1
        ⟨"push_code", "r", "t2", "i2", "o2", "d2", 1, "y", "ts2"⟩).1 = true := by
  refine ((audit_chain_properties auditWitnessModel).1 _ ?_).2.2.2.2
  exact AuditReachable.step _ _ (AuditReachable.step _ _ AuditReachable.init)

/-- A list with no newline contains no delimiter occurrence. -/
theorem splitLastDelim_of_no_newline :
    ∀ l : List Char, '\n' ∉ l → splitLastDelim l = Option.none := by
  intro l
  induction l with
  | nil => intro _; rfl
  | cons c cs ih =>
    intro h
    rw [splitLastDelim, ih (fun hc => h (List.mem_cons_of_mem c hc))]
    have hc : c ≠ '\n' := fun hc => h (hc ▸ List.mem_cons_self c cs)
    have hpre : delimChars.isPrefixOf (c :: cs) = false := by
      simp [delimChars, List.isPrefixOf]
      intro h2
      exact absurd h2.symm hc
    rw [hpre]
    rfl

/-- Splitting at the last delimiter recovers exactly the content and the
footer, provided the footer contains no newline. -/
theorem splitLastDelim_append (content suf : List Char) (hsuf : '\n' ∉ suf) :
    splitLastDelim (content ++ delimChars ++ suf) = some (content, suf) := by
  induction content with
  | nil =>
    have h5 : splitLastDelim ('\n' :: suf) = Option.none := by
      rw [splitLastDelim, splitLastDelim_of_no_newline suf hsuf]
      have hpre : delimChars.isPrefixOf ('\n' :: suf) = false := by
        cases suf with
        | nil => rfl
        | cons h t =>
          have hh : h ≠ '\n' := fun hh => hsuf (hh ▸ List.mem_cons_self h t)
          simp [delimChars, List.isPrefixOf]
          intro h2
          exact absurd h2.symm hh
      rw [hpre]
      rfl
    have h4 : splitLastDelim ('-' :: '\n' :: suf) = Option.none := by
      rw [splitLastDelim, h5]
      rfl
    have h3 : splitLastDelim ('-' :: '-' :: '\n' :: suf) = Option.none := by
      rw [splitLastDelim, h4]
      rfl
    have h2 : splitLastDelim ('-' :: '-' :: '-' :: '\n' :: suf) = Option.none := by
      rw [splitLastDelim, h3]
      rfl
    have h1 : splitLastDelim ('\n' :: '-' :: '-' :: '-' :: '\n' :: suf) =
        Option.none := by
      rw [splitLastDelim, h2]
      rfl
    show splitLastDelim ('\n' :: '\n' :: '-' :: '-' :: '-' :: '\n' :: suf) =
      some ([], suf)
    rw [splitLastDelim, h1]
    simp [delimChars, List.isPrefixOf]
  | cons c cs ih =>
    show splitLastDelim (c :: (cs ++ delimChars ++ suf)) = some (c :: cs, suf)
    rw [splitLastDelim, ih]

/-- A literal whose head differs from the input head never prefixes it. -/
theorem isPrefixOf_head_ne {lit : List Char} {a c : Char} {xs rest : List Char}
    (hlit : lit = a :: xs) (hne : a ≠ c) :
    lit.isPrefixOf (c :: rest) = false := by
  subst hlit
  simp [List.isPrefixOf]
  intro h
  exact absurd h hne

/-- The footer scan skips any prefix free of `<`. -/
theorem findFooter_skip (l f : List Char) (hl : '<' ∉ l) :
    findFooter (l ++ f) = findFooter f := by
  induction l with
  | nil => rfl
  | cons c cs ih =>
    have hc : c ≠ '<' := fun hc => hl (hc ▸ List.mem_cons_self c cs)
    show findFooter (c :: (cs ++ f)) = findFooter f
    rw [findFooter]
    have : matchFooterAt (c :: (cs ++ f)) = Option.none := by
      rw [matchFooterAt, dropLit]
      rw [isPrefixOf_head_ne (show "<sub>🔏 Argus v".data =
        '<' :: "sub>🔏 Argus v".data from rfl) (fun h => hc h.symm)]
      rfl
    rw [this]
    exact ih (fun hm => hl (List.mem_cons_of_mem c hm))

/-- Dropping a literal from itself plus a remainder. -/
theorem dropLit_self (lit r : List Char) : dropLit lit (lit ++ r) = some r := by
  rw [dropLit, if_pos, List.drop_left]
  exact List.isPrefixOf_iff_prefix.mpr (List.prefix_append lit r)

/-- A greedy class run over `a ++ b` with `a` inside the class and the head
of `b` outside it splits exactly at the boundary. -/
theorem takeWhile_class_append (p : Char → Bool) :
    ∀ (a b : List Char) (hc : Char),
      (∀ c ∈ a, p c = true) → b.head? = some hc → p hc = false →
      (a ++ b).takeWhile p = a ∧ (a ++ b).dropWhile p = b := by
  intro a
  induction a with
  | nil =>
    intro b hc _ hb hp
    cases b with
    | nil => exact absurd hb (by simp)
    | cons x t =>
      simp only [List.head?_cons, Option.some.injEq] at hb
      subst hb
      constructor
      · simp [List.takeWhile, hp]
      · simp [List.dropWhile, hp]
  | cons x xs ih =>
    intro b hc ha hb hp
    have hx : p x = true := ha x (List.mem_cons_self x xs)
    have hxs := ih b hc (fun c hcm => ha c (List.mem_cons_of_mem x hcm)) hb hp
    constructor
    · show ((x :: (xs ++ b)).takeWhile p) = x :: xs
      rw [List.takeWhile_cons, hx]
      simp [hxs.1]
    · show ((x :: (xs ++ b)).dropWhile p) = b
      rw [List.dropWhile_cons, hx]
      simp [hxs.2]

/-- The regex matches the rendered footer at its head, capturing the four
groups. -/
theorem matchFooterAt_footer (sid ts non sig : List Char)
    (hsid : sid ≠ [] ∧ ∀ c ∈ sid, isHexChar c = true)
    (hts : ts ≠ [] ∧ ∀ c ∈ ts, isTsChar c = true)
    (hnon : non ≠ [] ∧ ∀ c ∈ non, isHexChar c = true)
    (hsig : sig ≠ [] ∧ ∀ c ∈ sig, isHexChar c = true) :
    matchFooterAt ("<sub>🔏 Argus v".data ++ ("0.1.0".data ++
      (" · <code>".data ++ (sid ++ ("</code> · ".data ++ (ts ++
      (" · <code>sig:".data ++ (non ++ ([':'] ++ (sig ++
      "</code></sub>".data)))))))))) = some (sid, ts, non, sig) := by
  rw [matchFooterAt]
  rw [dropLit_self]
  simp only [Option.some_bind]
  obtain ⟨htake1, hdrop1⟩ := takeWhile_class_append isVersChar "0.1.0".data
    (" · <code>".data ++ (sid ++ ("</code> · ".data ++ (ts ++
      (" · <code>sig:".data ++ (non ++ ([':'] ++ (sig ++
      "</code></sub>".data)))))))) ' ' (by decide) rfl (by decide)
  rw [htake1, hdrop1, if_neg (by decide)]
  rw [dropLit_self]
  simp only [Option.some_bind]
  obtain ⟨htake2, hdrop2⟩ := takeWhile_class_append isHexChar sid
    ("</code> · ".data ++ (ts ++ (" · <code>sig:".data ++ (non ++ ([':'] ++
      (sig ++ "</code></sub>".data)))))) '<' hsid.2 rfl (by decide)
  rw [htake2, hdrop2, if_neg hsid.1]
  rw [dropLit_self]
  simp only [Option.some_bind]
  obtain ⟨htake3, hdrop3⟩ := takeWhile_class_append isTsChar ts
    (" · <code>sig:".data ++ (non ++ ([':'] ++ (sig ++
      "</code></sub>".data)))) ' ' hts.2 rfl (by decide)
  rw [htake3, hdrop3, if_neg hts.1]
  rw [dropLit_self]
  simp only [Option.some_bind]
  obtain ⟨htake4, hdrop4⟩ := takeWhile_class_append isHexChar non
    ([':'] ++ (sig ++ "</code></sub>".data)) ':' hnon.2 rfl (by decide)
  rw [htake4, hdrop4, if_neg hnon.1]
  rw [dropLit_self]
  simp only [Option.some_bind]
  obtain ⟨htake5, hdrop5⟩ := takeWhile_class_append isHexChar sig
    ("</code></sub>".data) '<' hsig.2 rfl (by decide)
  rw [htake5, hdrop5, if_neg hsig.1]
  rw [← List.append_nil "</code></sub>".data, dropLit_self]
  rfl

theorem findFooter_of_match (l : List Char)
    (r : List Char × List Char × List Char × List Char)
    (hm : matchFooterAt l = some r) (hne : l ≠ []) : findFooter l = some r := by
  cases l with
  | nil => exact absurd rfl hne
  | cons c cs => rw [findFooter, hm]

/-- The rendered footer (version 0.1.0) as a right-nested character list. -/
theorem mkFooter_data (sid ts non sig : String) :
    (mkFooter stampVERSION sid ts non sig).data =
      "<sub>🔏 Argus v".data ++ ("0.1.0".data ++ (" · <code>".data ++
        (sid.data ++ ("</code> · ".data ++ (ts.data ++
        (" · <code>sig:".data ++ (non.data ++ ([':'] ++ (sig.data ++
        "</code></sub>".data))))))))) := by
  simp only [mkFooter, stampVERSION, String.data_append, List.append_assoc]

/-- No newline occurs in a well-formed footer. -/
theorem footer_no_newline (sid ts non sig : String)
    (hsid : hexStr sid) (hts : tsStr ts) (hnon : hexStr non)
    (hsig : hexStr sig) :
    '\n' ∉ (mkFooter stampVERSION sid ts non sig).data := by
  rw [mkFooter_data]
  intro hmem
  simp only [List.mem_append] at hmem
  rcases hmem with h | h | h | h | h | h | h | h | h | h | h
  · exact absurd h (by decide)
  · exact absurd h (by decide)
  · exact absurd h (by decide)
  · exact absurd (hsid.2 _ h) (by decide)
  · exact absurd h (by decide)
  · exact absurd (hts.2 _ h) (by decide)
  · exact absurd h (by decide)
  · exact absurd (hnon.2 _ h) (by decide)
  · exact absurd h (by decide)
  · exact absurd (hsig.2 _ h) (by decide)
  · exact absurd h (by decide)

/-- On a body of the form `content ++ delimiter ++ footer`, `verify` reduces
to the post-parse stage on exactly the original components: the split finds
the delimiter before the footer and the regex captures the four groups. -/
theorem verify_stamped_eq (M : StampModel) (reg : Registry)
    (content shortId ts nonce sig : String) (cid : Option String)
    (hsid : hexStr shortId) (hts : tsStr ts) (hnon : hexStr nonce)
    (hsig : hexStr sig) :
    verify M reg
      (content ++ (String.mk delimChars ++ mkFooter stampVERSION shortId ts nonce sig))
      cid =
    verifyParsed M reg content shortId ts nonce sig cid := by
  have hdata : (content ++ (String.mk delimChars ++
      mkFooter stampVERSION shortId ts nonce sig)).data =
      content.data ++ delimChars ++ (mkFooter stampVERSION shortId ts nonce sig).data := by
    simp [String.data_append, List.append_assoc]
  have hsplit : splitLastDelim (content ++ (String.mk delimChars ++
      mkFooter stampVERSION shortId ts nonce sig)).data =
      some (content.data, (mkFooter stampVERSION shortId ts nonce sig).data) := by
    rw [hdata]
    exact splitLastDelim_append _ _ (footer_no_newline _ _ _ _ hsid hts hnon hsig)
  have hmatch : matchFooterAt (mkFooter stampVERSION shortId ts nonce sig).data =
      some (shortId.data, ts.data, nonce.data, sig.data) := by
    rw [mkFooter_data]
    exact matchFooterAt_footer shortId.data ts.data nonce.data sig.data
      hsid hts hnon hsig
  have hfind : findFooter (delimChars ++
      (mkFooter stampVERSION shortId ts nonce sig).data) =
      some (shortId.data, ts.data, nonce.data, sig.data) := by
    rw [findFooter_skip _ _ (by decide)]
    refine findFooter_of_match _ _ hmatch ?_
    rw [mkFooter_data]
    simp
  rw [verify, hsplit]
  simp only [hfind]

/-- **C3.** Stamping any content and verifying the stamped result — against a
comment id whose nonce is not already bound to a different comment — yields
valid = true with isOurInstance = true, tampered = false and replayed =
false.  Hypotheses: the instance id is nonempty hex (the key manager
generates 16 hex characters), the timestamp and nonce are well-formed (ISO
8601 and 16 hex characters as generated), HMAC outputs are hex digests, and
verification does not happen more than 60 seconds before the stamp's clock
reading. -/
theorem stamp_roundtrip_verifies (M : StampModel) (reg : Registry)
    (ts nonce content : String) (cid : String)
    (hinst : M.instanceId.data ≠ [] ∧ ∀ c ∈ M.instanceId.data, isHexChar c = true)
    (hts : tsStr ts) (hnon : hexStr nonce)
    (hhmac : ∀ k m, hexStr (M.hmac k m))
    (hreg : ∀ e, lookupNonce reg nonce = some e → e.commentId = cid)
    (htime : -60000 ≤ M.now - M.timeOf ts) :
    (verify M reg (stampContent M ts nonce content).1 (some cid)).1 =
      { valid := true, reason := Option.none,
        stamp := some (generateStamp M ts nonce content),
        isOurInstance := true, tampered := false, replayed := false } := by
  have hsid8 : hexStr (strTake M.instanceId 8) := by
    constructor
    · show M.instanceId.data.take 8 ≠ []
      cases hid : M.instanceId.data with
      | nil => exact absurd hid hinst.1
      | cons c cs => simp
    · intro c hc
      exact hinst.2 c (List.take_subset 8 _ (by exact hc))
  have hsigh : hexStr (M.hmac M.signingKey
      (stampMessage M.instanceId ts nonce (M.hash content))) := hhmac _ _
  have hbody : (stampContent M ts nonce content).1 =
      content ++ (String.mk delimChars ++
        mkFooter stampVERSION (strTake M.instanceId 8) ts nonce
          (M.hmac M.signingKey
            (stampMessage M.instanceId ts nonce (M.hash content)))) := rfl
  rw [hbody, verify_stamped_eq M reg content _ ts nonce _ (some cid)
    hsid8 hts hnon hsigh]
  have hstart : strStartsWith M.instanceId (strTake M.instanceId 8) = true := by
    show (M.instanceId.data.take 8).isPrefixOf M.instanceId.data = true
    exact List.isPrefixOf_iff_prefix.mpr (List.take_prefix 8 _)
  rw [verifyParsed, if_neg (fun h => h hstart)]
  have hany : (M.verificationKeys.any fun k =>
      M.hmac k (stampMessage M.instanceId ts nonce (M.hash content)) ==
        M.hmac M.signingKey
          (stampMessage M.instanceId ts nonce (M.hash content))) = true := by
    rw [StampModel.verificationKeys, List.any_cons]
    simp
  rw [if_neg (fun h => h hany)]
  rcases hl : lookupNonce reg nonce with _ | e
  · simp only [hl]
    rw [if_neg (by simp)]
    rw [if_neg (by omega)]
    rfl
  · simp only [hl]
    have hcid : e.commentId = cid := hreg e hl
    rw [if_neg (by simp [hcid])]
    rw [if_neg (by omega)]
    rfl

/-- Witness for C3 at concrete content, timestamp, nonce and comment id. -/
theorem stamp_roundtrip_verifies_witness :
    (verify stampWitnessModel []
      (stampContent stampWitnessModel "2026-01-01T00:00:00.000Z" "0123456789abcdef"
        "hello world").1 (some "c1")).1.valid = true := by
  rw [stamp_roundtrip_verifies stampWitnessModel []
    "2026-01-01T00:00:00.000Z" "0123456789abcdef" "hello world" "c1"
    (by decide) (⟨by decide, by decide⟩) (⟨by decide, by decide⟩)
    (fun k m => (⟨by decide, by decide⟩ : hexStr "bb"))
    (fun e he => by simp [lookupNonce] at he)
    (by decide)]

/-- The anti-replay condition, unfolded. -/
theorem replayCond_iff (reg : Registry) (nonce cid : String) :
    ((match lookupNonce reg nonce, some cid with
      | some e, some c => e.commentId != c
      | _, _ => false : Bool) = true) ↔
    ∃ e, lookupNonce reg nonce = some e ∧ e.commentId ≠ cid := by
  rcases hl : lookupNonce reg nonce with _ | e <;> simp [hl]

/-- `replayed` is set exactly behind the instance and signature checks, when
the nonce is registered to a different comment id. -/
theorem verifyParsed_replayed_iff (M : StampModel) (reg : Registry)
    (content shortId ts nonce sig : String) (cid : String) :
    ((verifyParsed M reg content shortId ts nonce sig (some cid)).1.replayed = true)
      ↔
    (strStartsWith M.instanceId shortId = true ∧
     (M.verificationKeys.any fun k =>
        M.hmac k (stampMessage M.instanceId ts nonce (M.hash content)) == sig) = true ∧
     ∃ e, lookupNonce reg nonce = some e ∧ e.commentId ≠ cid) := by
  simp only [verifyParsed]
  by_cases h1 : strStartsWith M.instanceId shortId = true
  · rw [if_neg (not_not_intro h1)]
    by_cases h2 : (M.verificationKeys.any fun k =>
        M.hmac k (stampMessage M.instanceId ts nonce (M.hash content)) == sig) = true
    · rw [if_neg (not_not_intro h2)]
      by_cases h3 : ∃ e, lookupNonce reg nonce = some e ∧ e.commentId ≠ cid
      · rw [if_pos ((replayCond_iff reg nonce cid).mpr h3)]
        simpa [h1, h2] using h3
      · rw [if_neg (fun hc => h3 ((replayCond_iff reg nonce cid).mp hc))]
        by_cases h4 : M.now - M.timeOf ts < -60000
        · rw [if_pos h4]
          simpa [h1, h2] using h3
        · rw [if_neg h4]
          simpa [h1, h2] using h3
    · rw [if_pos h2]
      simp [h2]
  · rw [if_pos h1]
    simp [h1]

/-- A valid verification against a comment id leaves the nonce bound to that
comment id in the post-state registry. -/
theorem verifyParsed_valid_binds (M : StampModel) (reg : Registry)
    (content shortId ts nonce sig : String) (cid : String)
    (hv : (verifyParsed M reg content shortId ts nonce sig (some cid)).1.valid = true) :
    ∃ e, lookupNonce (verifyParsed M reg content shortId ts nonce sig (some cid)).2
        nonce = some e ∧ e.commentId = cid := by
  simp only [verifyParsed] at hv ⊢
  by_cases h1 : strStartsWith M.instanceId shortId = true
  case neg => rw [if_pos h1] at hv; exact absurd hv (by simp)
  rw [if_neg (not_not_intro h1)] at hv ⊢
  by_cases h2 : (M.verificationKeys.any fun k =>
      M.hmac k (stampMessage M.instanceId ts nonce (M.hash content)) == sig) = true
  case neg => rw [if_pos h2] at hv; exact absurd hv (by simp)
  rw [if_neg (not_not_intro h2)] at hv ⊢
  by_cases h3 : ∃ e, lookupNonce reg nonce = some e ∧ e.commentId ≠ cid
  case pos =>
    rw [if_pos ((replayCond_iff reg nonce cid).mpr h3)] at hv
    exact absurd hv (by simp)
  rw [if_neg (fun hc => h3 ((replayCond_iff reg nonce cid).mp hc))] at hv ⊢
  by_cases h4 : M.now - M.timeOf ts < -60000
  case pos => rw [if_pos h4] at hv; exact absurd hv (by simp)
  rw [if_neg h4] at hv ⊢
  push_neg at h3
  rcases hl : lookupNonce reg nonce with _ | e
  · simp only [hl]
    refine ⟨⟨nonce, ts, "", cid, "verify"⟩, ?_, rfl⟩
    simp [registerNonce, lookupNonce, List.lookup]
  · simp only [hl]
    exact ⟨e, rfl, h3 e hl⟩

/-- A registry in which the nonce is unbound or bound to the verified comment
id never yields `replayed`. -/
theorem verifyParsed_fresh_no_replay (M : StampModel) (reg : Registry)
    (content shortId ts nonce sig : String) (cid : String)
    (hfresh : ∀ e, lookupNonce reg nonce = some e → e.commentId = cid) :
    (verifyParsed M reg content shortId ts nonce sig (some cid)).1.replayed = false := by
  rcases hr : (verifyParsed M reg content shortId ts nonce sig (some cid)).1.replayed
  · rfl
  · have hmp := (verifyParsed_replayed_iff M reg content shortId ts nonce sig cid).mp hr
    obtain ⟨_, _, e, he, hne⟩ := hmp
    exact absurd (hfresh e he) hne

/-- After a verification against `cid` on a registry where the nonce is fresh
or bound to `cid`, the nonce is still only bound to `cid`. -/
theorem verifyParsed_post_fresh (M : StampModel) (reg : Registry)
    (content shortId ts nonce sig : String) (cid : String)
    (hfresh : ∀ e, lookupNonce reg nonce = some e → e.commentId = cid) :
    ∀ e, lookupNonce
        (verifyParsed M reg content shortId ts nonce sig (some cid)).2 nonce =
          some e → e.commentId = cid := by
  simp only [verifyParsed]
  by_cases h1 : strStartsWith M.instanceId shortId = true
  case neg => rw [if_pos h1]; exact hfresh
  rw [if_neg (not_not_intro h1)]
  by_cases h2 : (M.verificationKeys.any fun k =>
      M.hmac k (stampMessage M.instanceId ts nonce (M.hash content)) == sig) = true
  case neg => rw [if_pos h2]; exact hfresh
  rw [if_neg (not_not_intro h2)]
  by_cases h3 : ∃ e, lookupNonce reg nonce = some e ∧ e.commentId ≠ cid
  case pos =>
    rw [if_pos ((replayCond_iff reg nonce cid).mpr h3)]
    exact hfresh
  rw [if_neg (fun hc => h3 ((replayCond_iff reg nonce cid).mp hc))]
  have hpost : ∀ e, lookupNonce
      (match some cid, lookupNonce reg nonce with
        | some cid, Option.none =>
          registerNonce reg ⟨nonce, ts, "", cid, "verify"⟩
        | _, _ => reg) nonce = some e → e.commentId = cid := by
    rcases hl : lookupNonce reg nonce with _ | e2
    · simp only [hl]
      intro e he
      simp only [registerNonce, lookupNonce, List.lookup, beq_self_eq_true,
        if_pos] at he
      simp only [Option.some.injEq] at he
      rw [← he]
    · simp only [hl]
      intro e he
      injection he with hee
      rw [← hee]
      exact hfresh e2 hl
  by_cases h4 : M.now - M.timeOf ts < -60000
  · rw [if_pos h4]
    exact hpost
  · rw [if_neg h4]
    exact hpost

theorem verify_stampedBody_eq (M : StampModel) (reg : Registry)
    (content shortId ts nonce sig : String) (cid : Option String)
    (hsid : hexStr shortId) (hts : tsStr ts) (hnon : hexStr nonce)
    (hsig : hexStr sig) :
    verify M reg (stampedBody content shortId ts nonce sig) cid =
      verifyParsed M reg content shortId ts nonce sig cid :=
  verify_stamped_eq M reg content shortId ts nonce sig cid hsid hts hnon hsig

/-- Validity of a verification against `cid` forces every pre-existing
binding of the stamp's nonce to be to `cid` itself. -/
theorem verifyParsed_valid_consistent (M : StampModel) (reg : Registry)
    (content shortId ts nonce sig : String) (cid : String)
    (hv : (verifyParsed M reg content shortId ts nonce sig (some cid)).1.valid = true) :
    ∀ e, lookupNonce reg nonce = some e → e.commentId = cid := by
  simp only [verifyParsed] at hv
  by_cases h1 : strStartsWith M.instanceId shortId = true
  case neg => rw [if_pos h1] at hv; exact absurd hv (by simp)
  rw [if_neg (not_not_intro h1)] at hv
  by_cases h2 : (M.verificationKeys.any fun k =>
      M.hmac k (stampMessage M.instanceId ts nonce (M.hash content)) == sig) = true
  case neg => rw [if_pos h2] at hv; exact absurd hv (by simp)
  rw [if_neg (not_not_intro h2)] at hv
  by_cases h3 : ∃ e, lookupNonce reg nonce = some e ∧ e.commentId ≠ cid
  case pos =>
    rw [if_pos ((replayCond_iff reg nonce cid).mpr h3)] at hv
    exact absurd hv (by simp)
  push_neg at h3
  exact h3

/-- **C5.** With a well-formed stamp whose instance and signature checks
pass, verification fails `replayed` exactly when the stamp's nonce is
already registered to a different comment id; re-verifying the same stamp
against the same comment id never marks `replayed`; and once a stamp with a
given nonce validates against one comment id, no stamp with that nonce can
validate against a different one. -/
theorem stamp_replay_semantics (M : StampModel) (reg : Registry)
    (content content2 shortId shortId2 ts ts2 nonce sig sig2 : String)
    (cid cid2 : String)
    (hsid : hexStr shortId) (hts : tsStr ts) (hnon : hexStr nonce)
    (hsig : hexStr sig) (hsid2 : hexStr shortId2) (hts2 : tsStr ts2)
    (hsig2 : hexStr sig2) :
    (strStartsWith M.instanceId shortId = true →
     (M.verificationKeys.any fun k =>
        M.hmac k (stampMessage M.instanceId ts nonce (M.hash content)) == sig) = true →
     ((verify M reg (stampedBody content shortId ts nonce sig)
        (some cid)).1.replayed = true ↔
      ∃ e, lookupNonce reg nonce = some e ∧ e.commentId ≠ cid)) ∧
    ((∀ e, lookupNonce reg nonce = some e → e.commentId = cid) →
     (verify M reg (stampedBody content shortId ts nonce sig)
        (some cid)).1.replayed = false ∧
     (verify M
        (verify M reg (stampedBody content shortId ts nonce sig) (some cid)).2
        (stampedBody content shortId ts nonce sig)
        (some cid)).1.replayed = false) ∧
    ((verify M reg (stampedBody content shortId ts nonce sig)
        (some cid)).1.valid = true →
     (verify M
        (verify M reg (stampedBody content shortId ts nonce sig) (some cid)).2
        (stampedBody content2 shortId2 ts2 nonce sig2)
        (some cid2)).1.valid = true →
     cid = cid2) := by
  rw [verify_stampedBody_eq M reg content shortId ts nonce sig (some cid)
    hsid hts hnon hsig]
  refine ⟨?_, ?_, ?_⟩
  · intro h1 h2
    rw [verifyParsed_replayed_iff]
    simp [h1, h2]
  · intro hfresh
    refine ⟨verifyParsed_fresh_no_replay M reg content shortId ts nonce sig cid
      hfresh, ?_⟩
    rw [verify_stampedBody_eq M _ content shortId ts nonce sig (some cid)
      hsid hts hnon hsig]
    exact verifyParsed_fresh_no_replay M _ content shortId ts nonce sig cid
      (verifyParsed_post_fresh M reg content shortId ts nonce sig cid hfresh)
  · intro hv1 hv2
    rw [verify_stampedBody_eq M _ content2 shortId2 ts2 nonce sig2 (some cid2)
      hsid2 hts2 hnon hsig2] at hv2
    obtain ⟨e, he, hecid⟩ := verifyParsed_valid_binds M reg content shortId ts
      nonce sig cid hv1
    have := verifyParsed_valid_consistent M _ content2 shortId2 ts2 nonce sig2
      cid2 hv2 e he
    rw [← hecid, this]

/-- Witness for C5 on a fresh registry with concrete components. -/
theorem stamp_replay_semantics_witness :
    (verify stampWitnessModel []
      (stampedBody "hi" "a3f8c912" "2026-01-01T00:00:00.000Z"
        "0123456789abcdef" "bb") (some "c1")).1.replayed = false := by
  refine ((stamp_replay_semantics stampWitnessModel [] "hi" "hi2" "a3f8c912"
    "a3f8c912" "2026-01-01T00:00:00.000Z" "2026-01-01T00:00:00.000Z"
    "0123456789abcdef" "bb" "bb" "c1" "c2"
    (⟨by decide, by decide⟩) (⟨by decide, by decide⟩)
    (⟨by decide, by decide⟩) (⟨by decide, by decide⟩)
    (⟨by decide, by decide⟩) (⟨by decide, by decide⟩)
    (⟨by decide, by decide⟩)).2.1 ?_).1
  intro e he
  simp [lookupNonce] at he

/-- **C10.** A stamp footer whose short instance id is not a prefix of this
instance's id is rejected outright: valid = false, isOurInstance = false,
tampered = false, replayed = false, and the nonce registry is untouched (the
signature, content hash and nonce are never consulted: the result is the
same for every hash, HMAC, key set and registry). -/
theorem verify_rejects_other_instance (M : StampModel) (reg : Registry)
    (content shortId ts nonce sig : String) (cid : Option String)
    (hsid : hexStr shortId) (hts : tsStr ts) (hnon : hexStr nonce)
    (hsig : hexStr sig)
    (hnot : strStartsWith M.instanceId shortId = false) :
    verify M reg (stampedBody content shortId ts nonce sig) cid =
      ({ valid := false,
         reason := some ("Different Argus instance (" ++ shortId ++ ")"),
         stamp := Option.none, isOurInstance := false, tampered := false,
         replayed := false }, reg) := by
  rw [verify_stampedBody_eq M reg content shortId ts nonce sig cid
    hsid hts hnon hsig]
  simp only [verifyParsed]
  rw [if_pos (by simp [hnot])]

/-- Witness for C10: a footer from instance `deadbeef` against our
`a3f8c912…` instance. -/
theorem verify_rejects_other_instance_witness :
    (verify stampWitnessModel []
      (stampedBody "hi" "deadbeef" "2026-01-01T00:00:00.000Z"
        "0123456789abcdef" "bb") (some "c1")).1.isOurInstance = false := by
  rw [verify_rejects_other_instance stampWitnessModel [] "hi" "deadbeef"
    "2026-01-01T00:00:00.000Z" "0123456789abcdef" "bb" (some "c1")
    (⟨by decide, by decide⟩) (⟨by decide, by decide⟩)
    (⟨by decide, by decide⟩) (⟨by decide, by decide⟩) (by decide)]

/-- The footer scan succeeds on any extension to the left. -/
theorem findFooter_append_isSome (l f : List Char)
    (hf : (findFooter f).isSome = true) : (findFooter (l ++ f)).isSome = true := by
  induction l with
  | nil => exact hf
  | cons c cs ih =>
    show (findFooter (c :: (cs ++ f))).isSome = true
    rw [findFooter]
    rcases hm : matchFooterAt (c :: (cs ++ f)) with _ | r
    · exact ih
    · rfl

/-- A body stamped by this instance matches the stamp regex. -/
theorem hasStamp_stampContent (M : StampModel) (ts nonce content : String)
    (hinst : M.instanceId.data ≠ [] ∧ ∀ c ∈ M.instanceId.data, isHexChar c = true)
    (hts : tsStr ts) (hnon : hexStr nonce)
    (hhmac : ∀ k m, hexStr (M.hmac k m)) :
    hasStamp (stampContent M ts nonce content).1 = true := by
  have hsid8 : hexStr (strTake M.instanceId 8) := by
    constructor
    · show M.instanceId.data.take 8 ≠ []
      cases hid : M.instanceId.data with
      | nil => exact absurd hid hinst.1
      | cons c cs => simp
    · intro c hc
      exact hinst.2 c (List.take_subset 8 _ (by exact hc))
  have hsigh : hexStr (M.hmac M.signingKey
      (stampMessage M.instanceId ts nonce (M.hash content))) := hhmac _ _
  have hmatch := matchFooterAt_footer (strTake M.instanceId 8).data ts.data
    nonce.data (M.hmac M.signingKey
      (stampMessage M.instanceId ts nonce (M.hash content))).data
    hsid8 hts hnon hsigh
  have hfoot : (findFooter (mkFooter stampVERSION (strTake M.instanceId 8) ts
      nonce (M.hmac M.signingKey
        (stampMessage M.instanceId ts nonce (M.hash content)))).data).isSome
      = true := by
    rw [findFooter_of_match _ _ (by rw [mkFooter_data]; exact hmatch)
      (by rw [mkFooter_data]; simp)]
    rfl
  show (findFooter (stampContent M ts nonce content).1.data).isSome = true
  have hdata : (stampContent M ts nonce content).1.data =
      (content.data ++ delimChars) ++
        (mkFooter stampVERSION (strTake M.instanceId 8) ts nonce
          (M.hmac M.signingKey
            (stampMessage M.instanceId ts nonce (M.hash content)))).data := by
    show (content ++ (String.mk delimChars ++ mkFooter stampVERSION
      (strTake M.instanceId 8) ts nonce (M.hmac M.signingKey
        (stampMessage M.instanceId ts nonce (M.hash content))))).data = _
    simp [String.data_append, List.append_assoc]
  rw [hdata]
  exact findFooter_append_isSome _ _ hfoot

/-- **C7 (counterexample).** The original claim — an issue is skipped only
when its most recent comment bears a *valid stamp from this instance* — is
false: a comment carrying another instance's footer (short id `deadbeef`,
not a prefix of our `a3f8c912…`) does not verify, yet the issue is skipped,
because the skip tests only `STAMP_REGEX`. -/
theorem lastword_skip_counterexample :
    (verify stampWitnessModel []
      (stampedBody "hi" "deadbeef" "2026-01-01T00:00:00.000Z"
        "0123456789abcdef" "bb") (some "c1")).1.valid = false ∧
    (verify stampWitnessModel []
      (stampedBody "hi" "deadbeef" "2026-01-01T00:00:00.000Z"
        "0123456789abcdef" "bb") (some "c1")).1.isOurInstance = false ∧
    argusHasLastWord
      [⟨stampedBody "hi" "deadbeef" "2026-01-01T00:00:00.000Z"
          "0123456789abcdef" "bb", 0⟩] = true ∧
    enqueuedIssues
      [⟨42, [⟨stampedBody "hi" "deadbeef" "2026-01-01T00:00:00.000Z"
          "0123456789abcdef" "bb", 0⟩], false⟩] = [] := by
  refine ⟨?_, ?_, ?_, ?_⟩ <;> decide

/-- **C7 (amended).** During a repo poll an issue is enqueued iff it is not
already tracked and `argusHasLastWord` is false; `argusHasLastWord` is false
for comment-less issues and otherwise tests only whether the most recent
comment's body matches the stamp footer regex — with no instance, signature
or nonce verification; every body freshly stamped by this instance does
match, so issues Argus answered last are indeed skipped. -/
theorem lastword_skip_amended :
    (∀ (issues : List PollIssue) (i : PollIssue), i ∈ issues →
      (i ∈ enqueuedIssues issues ↔
        i.tracked = false ∧ argusHasLastWord i.comments = false)) ∧
    argusHasLastWord [] = false ∧
    (∀ (comments : List PollComment) (latest : PollComment),
      latestComment comments = some latest →
      argusHasLastWord comments = hasStamp latest.body) ∧
    (∀ (M : StampModel) (ts nonce content : String),
      M.instanceId.data ≠ [] →
      (∀ c ∈ M.instanceId.data, isHexChar c = true) →
      tsStr ts → hexStr nonce →
      (∀ k m, hexStr (M.hmac k m)) →
      hasStamp (stampContent M ts nonce content).1 = true) := by
  refine ⟨?_, rfl, ?_, ?_⟩
  · intro issues i hi
    rw [enqueuedIssues, List.mem_filter]
    constructor
    · intro ⟨_, hp⟩
      simp only [Bool.and_eq_true, Bool.not_eq_true'] at hp
      exact hp
    · intro ⟨ht, hw⟩
      refine ⟨hi, ?_⟩
      simp [ht, hw]
  · intro comments latest hl
    rw [argusHasLastWord, hl]
  · intro M ts nonce content h1 h2 h3 h4 h5
    exact hasStamp_stampContent M ts nonce content ⟨h1, h2⟩ h3 h4 h5

/-- Witness for the amended C7 at concrete inputs. -/
theorem lastword_skip_amended_witness :
    hasStamp (stampContent stampWitnessModel "2026-01-01T00:00:00.000Z"
      "0123456789abcdef" "hello").1 = true := by
  exact lastword_skip_amended.2.2.2 stampWitnessModel "2026-01-01T00:00:00.000Z"
    "0123456789abcdef" "hello" (by decide) (by decide)
    (⟨by decide, by decide⟩) (⟨by decide, by decide⟩)
    (fun k m => (⟨by decide, by decide⟩ : hexStr "bb"))

theorem replaceHtml_no_open (fuel : ℕ) (s : List Char)
    (h : findSub "<!--".data s = Option.none) :
    replaceHtml (fuel + 1) s = (0, s) := by
  rw [replaceHtml, h]

theorem replaceAllAux_none (mfuel : ℕ) (toks : List RTok) (repl : List Char)
    (fuel : ℕ) (s : List Char)
    (h : firstMatchAux mfuel toks s = Option.none) :
    replaceAllAux mfuel toks repl (fuel + 1) s = (0, s) := by
  rw [replaceAllAux, h]

theorem replaceCount_none (toks : List RTok) (repl : List Char) (s : List Char)
    (h : firstMatchAux (matchFuel toks) toks s = Option.none) :
    replaceCount toks repl s = (0, s) := by
  rw [replaceCount]
  exact replaceAllAux_none _ _ _ _ _ h

theorem foldl_stepInvisible_clean (s : List Char) :
    ∀ (classes : List ((Char → Bool) × String)) (ps : List String),
      (∀ cl ∈ classes, s.countP cl.1 = 0) →
      classes.foldl stepInvisible (s, ps) = (s, ps) := by
  intro classes
  induction classes with
  | nil => intro ps _; rfl
  | cons cl rest ih =>
    intro ps hz
    rw [List.foldl_cons]
    have hstep : stepInvisible (s, ps) cl = (s, ps) := by
      rw [stepInvisible]
      have h0 : s.countP cl.1 = 0 := hz cl (List.mem_cons_self cl rest)
      simp [h0]
    rw [hstep]
    exact ih ps (fun c hc => hz c (List.mem_cons_of_mem cl hc))

theorem foldl_stepInjection_clean (s : List Char) :
    ∀ (pats : List (List RTok × String)) (ps : List String),
      (∀ pat ∈ pats, firstMatchAux (matchFuel pat.1) pat.1 s = Option.none) →
      pats.foldl stepInjection (s, ps) = (s, ps) := by
  intro pats
  induction pats with
  | nil => intro ps _; rfl
  | cons pat rest ih =>
    intro ps hz
    rw [List.foldl_cons]
    have hstep : stepInjection (s, ps) pat = (s, ps) := by
      rw [stepInjection,
        replaceCount_none pat.1 _ s (hz pat (List.mem_cons_self pat rest))]
      simp
    rw [hstep]
    exact ih ps (fun p hp => hz p (List.mem_cons_of_mem pat hp))

set_option maxRecDepth 10000 in
/-- **C9 (counterexample).** Sanitization is not idempotent: the input
`jailbreak` sanitizes to `[REDACTED:jailbreak]`, whose own redaction token
still matches the `jailbreak` pattern, so a second pass redacts again. -/
theorem sanitize_not_idempotent :
    (sanitize "jailbreak").sanitized = "[REDACTED:jailbreak]" ∧
    (sanitize (sanitize "jailbreak").sanitized).sanitized =
      "[REDACTED:[REDACTED:jailbreak]]" ∧
    (sanitize (sanitize "jailbreak").sanitized).sanitized ≠
      (sanitize "jailbreak").sanitized := by
  refine ⟨by decide, by decide, by decide⟩

/-- **C9 (amended).** Sanitization is idempotent on inputs it leaves
unchanged: when the input contains no HTML comment opener, no invisible
characters, no injection-pattern match and at most 4000 characters,
`sanitize` returns the input itself and the round trip holds.  In general it
is not idempotent: re-sanitizing can redact the redaction tokens themselves
(counterexample `jailbreak`). -/
theorem sanitize_idempotent_on_clean (x : String)
    (hhtml : findSub "<!--".data x.data = Option.none)
    (hinv : ∀ cl ∈ invisibleClasses, x.data.countP cl.1 = 0)
    (hinj : ∀ pat ∈ injectionPatterns,
      firstMatchAux (matchFuel pat.1) pat.1 x.data = Option.none)
    (hlen : x.length ≤ 4000) :
    (sanitize x).sanitized = x ∧
    (sanitize (sanitize x).sanitized).sanitized = (sanitize x).sanitized := by
  have hs : (sanitize x).sanitized = x := by
    rw [sanitize, sanitizeWith, replaceHtml_no_open _ _ hhtml]
    dsimp only
    rw [if_neg (lt_irrefl 0)]
    rw [foldl_stepInvisible_clean x.data invisibleClasses [] hinv,
      foldl_stepInjection_clean x.data injectionPatterns [] hinj]
    dsimp only
    rw [apply_ite Prod.fst]
    dsimp only
    rw [ite_self]
    rw [if_neg (show ¬ (DEFAULT_MAX_LENGTH < x.data.length) by
      rw [DEFAULT_MAX_LENGTH]
      have hx : x.data.length = x.length := rfl
      omega)]
  exact ⟨hs, by rw [hs]; exact hs⟩

/-- Witness for the amended C9 at the clean input `hello`. -/
theorem sanitize_idempotent_on_clean_witness :
    (sanitize "hello").sanitized = "hello" := by
  exact (sanitize_idempotent_on_clean "hello" (by decide) (by decide)
    (by decide) (by decide)).1

end Argus



